import Mathlib

/-!
Verification of the content-extraction core of `gui_scraper_v2.py`
(`scrape_dynamic_content`, together with its helper `clean_text`).

The HTML tree supplied by the parsing collaborator is modelled by `Node`:
an element has a tag name, an attribute list and ordered children; a text
node carries its string.  Python object identity (`id(...)`) is modelled by
the `nid` field; the well-formedness hypothesis `WF` below states that all
identities in a tree are distinct, which is what CPython's `id` guarantees
for simultaneously live objects.

External collaborators are parameters of the model:
* `urljoin` (from `urllib.parse`) is a function `String → String → Except Unit String`;
  `Except.error` models the `ValueError` the source catches.
* the logging queue is modelled by the `logs` list of the state
  (`queue.put` is an append).  Unconditional progress messages of the
  source are elided; the warning messages relevant to the error-handling
  claims are kept (with simplified wording).

The state record additionally carries a ghost field `emitted` pairing each
output record with the node that produced it; `scraped_data` is exactly
`emitted.map Prod.snd` (proved below), and the ghost field is used only to
state provenance properties.
-/

inductive Node where
  | elem (nid : Nat) (name : String) (attrs : List (String × String)) (children : List Node)
  | text (nid : Nat) (str : String)

mutual

def Node.beq : Node → Node → Bool
  | .elem i t a cs, .elem j u b ds => i == j && t == u && a == b && Node.beqList cs ds
  | .text i s, .text j u => i == j && s == u
  | _, _ => false

def Node.beqList : List Node → List Node → Bool
  | [], [] => true
  | c :: cs, d :: ds => Node.beq c d && Node.beqList cs ds
  | _, _ => false

end

mutual

theorem Node.beq_iff : ∀ a b : Node, Node.beq a b = true ↔ a = b
  | .elem i t a cs, .elem j u b ds => by
    simp only [Node.beq, Bool.and_eq_true, beq_iff_eq, Node.elem.injEq]
    rw [Node.beqList_iff cs ds]
    tauto
  | .text i s, .text j u => by simp [Node.beq]
  | .elem i t a cs, .text j u => by simp [Node.beq]
  | .text i s, .elem j u b ds => by simp [Node.beq]

theorem Node.beqList_iff : ∀ a b : List Node, Node.beqList a b = true ↔ a = b
  | [], [] => by simp [Node.beqList]
  | c :: cs, d :: ds => by
    simp only [Node.beqList, Bool.and_eq_true, List.cons.injEq]
    exact and_congr (Node.beq_iff c d) (Node.beqList_iff cs ds)
  | [], _ :: _ => by simp [Node.beqList]
  | _ :: _, [] => by simp [Node.beqList]

end

instance : DecidableEq Node := fun a b => decidable_of_iff _ (Node.beq_iff a b)

def Node.nid : Node → Nat
  | .elem i _ _ _ => i
  | .text i _ => i

/-- Tag name.  BeautifulSoup returns `None` for the `.name` of a
`NavigableString`; the empty string plays that role here (it is a member of
no tag set, exactly like `None`). -/
def Node.name : Node → String
  | .elem _ t _ _ => t
  | .text _ _ => ""

def Node.strVal : Node → String
  | .elem _ _ _ _ => ""
  | .text _ s => s

def Node.isElem : Node → Bool
  | .elem _ _ _ _ => true
  | .text _ _ => false

def Node.isText : Node → Bool
  | .elem _ _ _ _ => false
  | .text _ _ => true

def Node.children : Node → List Node
  | .elem _ _ _ cs => cs
  | .text _ _ => []

/-- `element.get(key)`: attribute lookup (attribute keys are unique in a
parsed tag, so first match is the value). -/
def Node.attr : Node → String → Option String
  | .elem _ _ a _, k => (a.find? (fun p => p.1 == k)).map Prod.snd
  | .text _ _, _ => none

/-- `element.get(key, default)`. -/
def Node.attrD (n : Node) (k d : String) : String := (n.attr k).getD d

mutual

/-- `element.get_text()`: concatenation of all descendant strings. -/
def Node.get_text : Node → String
  | .elem _ _ _ cs => getTextList cs
  | .text _ s => s

def getTextList : List Node → String
  | [] => ""
  | c :: cs => Node.get_text c ++ getTextList cs

end

mutual

/-- All descendants of a node (excluding the node itself) in document
order, i.e. pre-order depth-first — the order in which BeautifulSoup's
`find_all` enumerates matches. -/
def allDesc : Node → List Node
  | .elem _ _ _ cs => descList cs
  | .text _ _ => []

def descList : List Node → List Node
  | [] => []
  | c :: cs => c :: (allDesc c ++ descList cs)

end

mutual

/-- All text-node descendants in document order, each paired with its
parent element (`element.parent` in the source). -/
def textsUnder : Node → List (Node × Node)
  | .elem i t a cs => textsInChildren (Node.elem i t a cs) cs
  | .text _ _ => []

def textsInChildren : Node → List Node → List (Node × Node)
  | _, [] => []
  | p, c :: cs =>
      (match c with
       | .text i s => [(Node.text i s, p)]
       | .elem i t a ds => textsUnder (Node.elem i t a ds)) ++ textsInChildren p cs

end

mutual

/-- All node identities of a tree (the node itself included). -/
def nodeIds : Node → List Nat
  | .elem i _ _ cs => i :: nodeIdsList cs
  | .text i _ => [i]

def nodeIdsList : List Node → List Nat
  | [] => []
  | c :: cs => nodeIds c ++ nodeIdsList cs

end

/-- Well-formedness of an input tree: all node identities are distinct
(CPython `id` is injective on live objects). -/
def WF (n : Node) : Prop := (nodeIds n).Nodup

instance (n : Node) : Decidable (WF n) := by unfold WF; infer_instance

/- ---------------------------------------------------------------------
Helper `clean_text` and the Python primitives it uses.
`clean_text(text)` in the source is `' '.join(text.split()).strip()`.
--------------------------------------------------------------------- -/

/-- The whitespace characters of Python `str.split()` / `str.strip()`
(ASCII fragment; the inputs of interest contain no exotic Unicode
whitespace). -/
def pyIsSpace (c : Char) : Bool :=
  c == ' ' || c == '\t' || c == '\n' || c == '\r' || c == '\x0b' || c == '\x0c'

/-- Accumulator-based whitespace splitting of a character list: the words
of Python `str.split()` in order (maximal whitespace-free runs). -/
def pySplitAux : List Char → List Char → List (List Char)
  | [], acc => if acc = [] then [] else [acc.reverse]
  | c :: cs, acc =>
      if pyIsSpace c then
        (if acc = [] then pySplitAux cs [] else acc.reverse :: pySplitAux cs [])
      else pySplitAux cs (c :: acc)

/-- Python `text.split()`: split on whitespace runs, dropping empty pieces. -/
def pySplit (s : String) : List String :=
  (pySplitAux s.data []).map String.mk

/-- Python `text.strip()`. -/
def pyStrip (s : String) : String :=
  String.mk (((s.data.dropWhile pyIsSpace).reverse.dropWhile pyIsSpace).reverse)

/-- `clean_text` from the source: collapse whitespace runs to single
spaces and trim. -/
def clean_text (text : String) : String :=
  pyStrip (String.intercalate " " (pySplit text))

/- ---------------------------------------------------------------------
The record data model and the fixed tag sets.
--------------------------------------------------------------------- -/

def PRIMARY_TAGS : List String :=
  ["h1", "h2", "h3", "h4", "h5", "h6", "p", "li", "a", "img", "th", "td"]

/-- The non-content container tags of the recovery pass (line 183 of the
source). -/
def NONCONTENT_TAGS : List String :=
  ["script", "style", "noscript", "meta", "link", "title", "head", "html", "body"]

/-- The `data` value of a record: a plain string, or the structured dict
of a link (`text`/`url`) or an image (`src`/`alt`). -/
inductive RData where
  | strD (v : String)
  | linkD (text url : String)
  | imageD (src alt : String)
deriving DecidableEq, Repr

structure Record where
  rtype : String
  rdata : RData
deriving DecidableEq, Repr

/-- `tag_name.startswith('h') and len(tag_name) == 2 and tag_name[1].isdigit()`. -/
def isHeadingTag (t : String) : Bool :=
  match t.data with
  | [c1, c2] => c1 == 'h' && c2.isDigit
  | _ => false

/-- Python `x or y` on strings (empty string is falsy). -/
def pyOrS (a b : String) : String := if a = "" then b else a

/-- Python `x or y` where `x` is an optional attribute value (`None` and
the empty string are falsy). -/
def pyOrOpt (a b : Option String) : Option String :=
  match a with
  | some s => if s = "" then b else some s
  | none => b

/- ---------------------------------------------------------------------
The classification pass (source lines 110-168).
--------------------------------------------------------------------- -/

/-- The body of the per-element `try` block (source lines 115-155):
derive the record of one primary element, returning the warning messages
logged on URL-resolution failure. -/
def deriveRecord (urljoin : String → String → Except Unit String) (base_url : String)
    (element : Node) : Option Record × List String :=
  let tag_name := element.name
  let text_content := clean_text element.get_text
  if isHeadingTag tag_name then
    (if text_content ≠ "" then some ⟨"heading_" ++ tag_name, .strD text_content⟩ else none, [])
  else if tag_name = "p" then
    (if text_content ≠ "" then some ⟨"paragraph", .strD text_content⟩ else none, [])
  else if tag_name = "li" then
    (if text_content ≠ "" then some ⟨"list_item", .strD text_content⟩ else none, [])
  else if tag_name = "a" then
    match element.attr "href" with
    | some href =>
      if href ≠ "" then
        let resolved := match urljoin base_url href with
          | .ok u => (u, ([] : List String))
          | .error _ => (href, ["[!] Warning: Could not create absolute URL for href. Using original href."])
        let absolute_href := resolved.1
        let link_text := pyOrS text_content (pyOrS (clean_text (element.attrD "title" "")) absolute_href)
        (some ⟨"link", .linkD link_text absolute_href⟩, resolved.2)
      else (none, [])
    | none => (none, [])
  else if tag_name = "img" then
    match pyOrOpt (element.attr "data-src") (element.attr "src") with
    | some src =>
      if src ≠ "" then
        let resolved := match urljoin base_url src with
          | .ok u => (u, ([] : List String))
          | .error _ => (src, ["[!] Warning: Could not create absolute URL for src. Using original src."])
        let absolute_src := resolved.1
        let alt_text := clean_text (element.attrD "alt" "")
        (some ⟨"image", .imageD absolute_src alt_text⟩, resolved.2)
      else (none, [])
    | none => (none, [])
  else if tag_name = "th" then
    (if text_content ≠ "" then some ⟨"table_header", .strD text_content⟩ else none, [])
  else if tag_name = "td" then
    (if text_content ≠ "" then some ⟨"table_data", .strD text_content⟩ else none, [])
  else (none, [])

structure ScrapeState where
  scraped_data : List Record
  processed_elements : List Nat
  logs : List String
  emitted : List (Node × Record)

def initState : ScrapeState := ⟨[], [], [], []⟩

/-- `for i in l: s.add(i)` on a Python set.  The Python `set` is modelled
by a duplicate-free list used only through membership. -/
def insertIds (l : List Nat) (s : List Nat) : List Nat :=
  l.foldl (fun acc i => acc.insert i) s

/-- One iteration of the classification loop (source lines 110-168): skip
if already consumed, derive the record, and on success append it and mark
the element, all its descendant elements (`find_all(True)`), and its
direct-child text nodes (`find_all(string=True, recursive=False)`) as
consumed. -/
def processElement (urljoin : String → String → Except Unit String) (base_url : String)
    (s : ScrapeState) (element : Node) : ScrapeState :=
  if element.nid ∈ s.processed_elements then s
  else
    match deriveRecord urljoin base_url element with
    | (some record, warns) =>
        { scraped_data := s.scraped_data ++ [record]
          processed_elements :=
            insertIds ((element.children.filter Node.isText).map Node.nid)
              (insertIds (((allDesc element).filter Node.isElem).map Node.nid)
                (s.processed_elements.insert element.nid))
          logs := s.logs ++ warns
          emitted := s.emitted ++ [(element, record)] }
    | (none, warns) => { s with logs := s.logs ++ warns }

/-- `container.find_all(list(PRIMARY_TAGS))`: all descendant elements with
a primary tag, in document order. -/
def elements_found (container : Node) : List Node :=
  (allDesc container).filter (fun n => n.isElem && decide (n.name ∈ PRIMARY_TAGS))

/-- The classification pass (source lines 105-168). -/
def firstPass (urljoin : String → String → Except Unit String) (base_url : String)
    (container : Node) : ScrapeState :=
  (elements_found container).foldl (processElement urljoin base_url) initState

/- ---------------------------------------------------------------------
The orphan-text recovery pass (source lines 172-200).
--------------------------------------------------------------------- -/

def text_chunk_record (text : String) : Record := ⟨"text_chunk", .strD text⟩

/-- One iteration of the recovery loop (source lines 177-198) over a text
node and its parent. -/
def recoveryStep (s : ScrapeState) (tp : Node × Node) : ScrapeState :=
  let element := tp.1
  let parent := tp.2
  let element_id := element.nid
  if element_id ∈ s.processed_elements then s
  else if parent.name ∈ NONCONTENT_TAGS then
    { s with processed_elements := s.processed_elements.insert element_id }
  else
    let text := clean_text element.strVal
    if text ≠ "" then
      if parent.nid ∉ s.processed_elements ∧ parent.name ∉ PRIMARY_TAGS then
        { scraped_data := s.scraped_data ++ [text_chunk_record text]
          processed_elements := s.processed_elements.insert element_id
          logs := s.logs
          emitted := s.emitted ++ [(tp.1, text_chunk_record text)] }
      else { s with processed_elements := s.processed_elements.insert element_id }
    else { s with processed_elements := s.processed_elements.insert element_id }

/-- The whole extraction (`scrape_dynamic_content`): classification pass
followed by the recovery pass over `container.find_all(string=True)`.  The
`container` argument is `soup.body` when present, else the soup itself
(source lines 99-103); the model takes the chosen container directly. -/
def scrape_dynamic_content (urljoin : String → String → Except Unit String) (base_url : String)
    (container : Node) : ScrapeState :=
  (textsUnder container).foldl recoveryStep (firstPass urljoin base_url container)

/- ---------------------------------------------------------------------
Fault-injection variants, for the error-handling claims.
--------------------------------------------------------------------- -/

/-- Variant of `processElement` in which deriving the record of an element
for which `raises` holds raises an exception at the start of the `try`
block; the handler (source lines 156-158) logs and skips the element. -/
def processElementE (raises : Node → Bool) (urljoin : String → String → Except Unit String)
    (base_url : String) (s : ScrapeState) (element : Node) : ScrapeState :=
  if element.nid ∈ s.processed_elements then s
  else if raises element then
    { s with logs := s.logs ++ ["[!] Error processing element <" ++ element.name ++ ">"] }
  else processElement urljoin base_url s element

/-- The classification pass with per-element fault injection. -/
def firstPassE (raises : Node → Bool) (urljoin : String → String → Except Unit String)
    (base_url : String) (container : Node) : ScrapeState :=
  (elements_found container).foldl (processElementE raises urljoin base_url) initState

/-- `scrape_dynamic_content` when the recovery pass raises while handling
the `k`-th text node: the pass-level handler (source lines 175-200)
returns whatever has been accumulated, i.e. the fold over the first `k`
text nodes (with `k = 0` covering a failure before the loop starts). -/
def scrapeRecoveryFail (urljoin : String → String → Except Unit String) (base_url : String)
    (container : Node) (k : Nat) : ScrapeState :=
  ((textsUnder container).take k).foldl recoveryStep (firstPass urljoin base_url container)

/- ---------------------------------------------------------------------
Generic list helpers.
--------------------------------------------------------------------- -/

theorem mem_insertIds (l : List Nat) (s : List Nat) (x : Nat) :
    x ∈ insertIds l s ↔ x ∈ l ∨ x ∈ s := by
  induction l generalizing s with
  | nil => simp [insertIds]
  | cons a l ih =>
      simp only [insertIds, List.foldl_cons] at *
      rw [ih]
      simp [List.mem_insert_iff]
      tauto

theorem filter_length_le_one {α : Type} (l : List α) (q : α → Bool) (hnd : l.Nodup)
    (h : ∀ a ∈ l, ∀ b ∈ l, q a = true → q b = true → a = b) :
    (l.filter q).length ≤ 1 := by
  induction l with
  | nil => simp
  | cons c cs ih =>
      have hnd' : cs.Nodup := (List.nodup_cons.mp hnd).2
      have hcn : c ∉ cs := (List.nodup_cons.mp hnd).1
      by_cases hc : q c = true
      · have hfe : cs.filter q = [] := by
          rw [List.filter_eq_nil_iff]
          intro a ha hqa
          exact hcn ((h a (List.mem_cons_of_mem _ ha) c (List.mem_cons_self _ _) hqa hc) ▸ ha)
        simp [List.filter_cons, hc, hfe]
      · have : (c :: cs).filter q = cs.filter q := by
          simp [List.filter_cons, hc]
        rw [this]
        exact ih hnd' (fun a ha b hb => h a (List.mem_cons_of_mem _ ha) b (List.mem_cons_of_mem _ hb))

/-- In a list of pairs with duplicate-free first components, the first
component determines the pair. -/
theorem key_determines {α β : Type} (l : List (α × β)) (hnd : (l.map Prod.fst).Nodup)
    {a : α} {b b' : β} (h1 : (a, b) ∈ l) (h2 : (a, b') ∈ l) : b = b' := by
  induction l with
  | nil => simp at h1
  | cons c cs ih =>
      simp only [List.map_cons, List.nodup_cons] at hnd
      rcases List.mem_cons.mp h1 with h1 | h1 <;> rcases List.mem_cons.mp h2 with h2 | h2
      · rw [← h1] at h2; exact (Prod.mk.injEq _ _ _ _ ▸ h2).2.symm ▸ rfl
      · exfalso; apply hnd.1; rw [← h1]; exact List.mem_map.mpr ⟨(a, b'), h2, rfl⟩
      · exfalso; apply hnd.1; rw [← h2]; exact List.mem_map.mpr ⟨(a, b), h1, rfl⟩
      · exact ih hnd.2 h1 h2

/- ---------------------------------------------------------------------
Structural lemmas about document-order traversals.
--------------------------------------------------------------------- -/

theorem mem_descList_iff {x : Node} {cs : List Node} :
    x ∈ descList cs ↔ ∃ c ∈ cs, x = c ∨ x ∈ allDesc c := by
  induction cs with
  | nil => simp [descList]
  | cons c cs ih =>
      simp only [descList, List.mem_cons, List.mem_append, ih]
      constructor
      · rintro (h | h | ⟨d, hd, h⟩)
        · exact ⟨c, Or.inl rfl, Or.inl h⟩
        · exact ⟨c, Or.inl rfl, Or.inr h⟩
        · exact ⟨d, Or.inr hd, h⟩
      · rintro ⟨d, rfl | hd, h⟩
        · tauto
        · exact Or.inr (Or.inr ⟨d, hd, h⟩)

theorem mem_children_allDesc {c n : Node} (h : c ∈ n.children) : c ∈ allDesc n := by
  cases n with
  | elem i t a cs => exact mem_descList_iff.mpr ⟨c, h, Or.inl rfl⟩
  | text i s => simp [Node.children] at h

mutual

theorem allDesc_trans : ∀ (n b : Node), b ∈ allDesc n → ∀ x ∈ allDesc b, x ∈ allDesc n
  | .elem i t a cs, b => fun hb x hx => descList_trans cs b hb x hx
  | .text i s, b => by simp [allDesc]

theorem descList_trans : ∀ (cs : List Node) (b : Node), b ∈ descList cs → ∀ x ∈ allDesc b, x ∈ descList cs
  | [], b => by simp [descList]
  | c :: cs, b => by
      intro hb x hx
      simp only [descList, List.mem_cons, List.mem_append] at hb ⊢
      rcases hb with rfl | hb | hb
      · exact Or.inr (Or.inl hx)
      · exact Or.inr (Or.inl (allDesc_trans c b hb x hx))
      · exact Or.inr (Or.inr (descList_trans cs b hb x hx))

end

mutual

theorem allDesc_segment : ∀ (n E : Node), E ∈ allDesc n →
    ∃ l1 l2, allDesc n = l1 ++ E :: (allDesc E ++ l2)
  | .elem i t a cs, E => fun hE => descList_segment cs E hE
  | .text i s, E => by simp [allDesc]

theorem descList_segment : ∀ (cs : List Node) (E : Node), E ∈ descList cs →
    ∃ l1 l2, descList cs = l1 ++ E :: (allDesc E ++ l2)
  | [], E => by simp [descList]
  | c :: cs, E => by
      intro hE
      simp only [descList, List.mem_cons, List.mem_append] at hE
      rcases hE with rfl | hE | hE
      · exact ⟨[], descList cs, by simp [descList]⟩
      · obtain ⟨m1, m2, hm⟩ := allDesc_segment c E hE
        exact ⟨c :: m1, m2 ++ descList cs, by simp [descList, hm]⟩
      · obtain ⟨m1, m2, hm⟩ := descList_segment cs E hE
        exact ⟨c :: (allDesc c ++ m1), m2, by simp [descList, hm]⟩

end

mutual

theorem textsUnder_fst : ∀ n : Node,
    (textsUnder n).map Prod.fst = (allDesc n).filter Node.isText
  | .elem i t a cs => textsInChildren_fst (Node.elem i t a cs) cs
  | .text i s => by simp [textsUnder, allDesc]

theorem textsInChildren_fst : ∀ (p : Node) (cs : List Node),
    (textsInChildren p cs).map Prod.fst = (descList cs).filter Node.isText
  | p, [] => by simp [textsInChildren, descList]
  | p, .text i s :: cs => by
      simp only [textsInChildren, descList, List.map_append, List.filter_cons,
        List.filter_append, Node.isText, allDesc]
      simp [textsInChildren_fst p cs]
  | p, .elem i t a ds :: cs => by
      simp only [textsInChildren, descList, List.map_append, List.filter_cons,
        List.filter_append, Node.isText, allDesc]
      simp [textsUnder_fst (Node.elem i t a ds), textsInChildren_fst p cs, allDesc]

end

mutual

theorem textsUnder_parent : ∀ (n : Node) (t p : Node), (t, p) ∈ textsUnder n →
    t.isText = true ∧ p.isElem = true ∧ t ∈ p.children ∧ (p = n ∨ p ∈ allDesc n)
  | .elem i tg a cs, t, p => fun h => by
      rcases textsInChildren_parent (Node.elem i tg a cs) cs t p h with ⟨ht, hcase⟩
      rcases hcase with ⟨rfl, hc⟩ | ⟨hd, he, hc⟩
      · exact ⟨ht, rfl, hc, Or.inl rfl⟩
      · exact ⟨ht, he, hc, Or.inr hd⟩
  | .text i s, t, p => by simp [textsUnder]

theorem textsInChildren_parent : ∀ (p0 : Node) (cs : List Node) (t p : Node),
    (t, p) ∈ textsInChildren p0 cs →
    t.isText = true ∧ ((p = p0 ∧ t ∈ cs) ∨ (p ∈ descList cs ∧ p.isElem = true ∧ t ∈ p.children))
  | p0, [], t, p => by simp [textsInChildren]
  | p0, .text i s :: cs, t, p => by
      intro h
      simp only [textsInChildren, List.mem_append, List.mem_singleton] at h
      rcases h with h | h
      · rw [Prod.mk.injEq] at h
        obtain ⟨rfl, rfl⟩ := h
        exact ⟨rfl, Or.inl ⟨rfl, List.mem_cons_self _ _⟩⟩
      · rcases textsInChildren_parent p0 cs t p h with ⟨ht, hcase⟩
        refine ⟨ht, ?_⟩
        rcases hcase with ⟨hp, hc⟩ | ⟨hd, he, hc⟩
        · exact Or.inl ⟨hp, List.mem_cons_of_mem _ hc⟩
        · exact Or.inr ⟨by simp only [descList, List.mem_cons, List.mem_append]; tauto, he, hc⟩
  | p0, .elem i tg a ds :: cs, t, p => by
      intro h
      simp only [textsInChildren, List.mem_append] at h
      rcases h with h | h
      · rcases textsUnder_parent (Node.elem i tg a ds) t p h with ⟨ht, he, hc, hd⟩
        refine ⟨ht, Or.inr ⟨?_, he, hc⟩⟩
        simp only [descList, List.mem_cons, List.mem_append]
        tauto
      · rcases textsInChildren_parent p0 cs t p h with ⟨ht, hcase⟩
        refine ⟨ht, ?_⟩
        rcases hcase with ⟨hp, hc⟩ | ⟨hd, he, hc⟩
        · exact Or.inl ⟨hp, List.mem_cons_of_mem _ hc⟩
        · exact Or.inr ⟨by simp only [descList, List.mem_cons, List.mem_append]; tauto, he, hc⟩

end

mutual

theorem textsUnder_sub : ∀ (n E : Node), E ∈ allDesc n → ∀ q ∈ textsUnder E, q ∈ textsUnder n
  | .elem i t a cs, E => fun hE q hq =>
      textsInChildren_sub (Node.elem i t a cs) cs E hE q hq
  | .text i s, E => by simp [allDesc]

theorem textsInChildren_sub : ∀ (p0 : Node) (cs : List Node) (E : Node), E ∈ descList cs →
    ∀ q ∈ textsUnder E, q ∈ textsInChildren p0 cs
  | p0, [], E => by simp [descList]
  | p0, c :: cs, E => by
      intro hE q hq
      simp only [descList, List.mem_cons, List.mem_append] at hE
      have hin : q ∈ textsInChildren p0 cs → q ∈ textsInChildren p0 (c :: cs) := by
        intro h
        cases c with
        | text i s => simp only [textsInChildren, List.mem_append]; tauto
        | elem i t a ds => simp only [textsInChildren, List.mem_append]; tauto
      rcases hE with rfl | hE | hE
      · cases E with
        | text i s => simp [textsUnder] at hq
        | elem i t a ds =>
            simp only [textsInChildren, List.mem_append]
            exact Or.inl hq
      · cases c with
        | text i s => simp [allDesc] at hE
        | elem i t a ds =>
            simp only [textsInChildren, List.mem_append]
            exact Or.inl (textsUnder_sub (Node.elem i t a ds) E hE q hq)
      · exact hin (textsInChildren_sub p0 cs E hE q hq)

end

theorem textsInChildren_child : ∀ (p0 : Node) (cs : List Node) (t : Node),
    t.isText = true → t ∈ cs → (t, p0) ∈ textsInChildren p0 cs
  | p0, [], t => by simp
  | p0, c :: cs, t => by
      intro ht hc
      rcases List.mem_cons.mp hc with rfl | hc
      · cases t with
        | text i s => simp [textsInChildren]
        | elem i tg a ds => simp [Node.isText] at ht
      · have := textsInChildren_child p0 cs t ht hc
        cases c with
        | text i s => simp only [textsInChildren, List.mem_append]; tauto
        | elem i tg a ds => simp only [textsInChildren, List.mem_append]; tauto

/-- A text child of an element appears, with that element as its parent,
among the element's text descendants. -/
theorem textsUnder_child {p t : Node} (hp : p.isElem = true) (ht : t.isText = true)
    (hc : t ∈ p.children) : (t, p) ∈ textsUnder p := by
  cases p with
  | elem i tg a cs => exact textsInChildren_child _ cs t ht hc
  | text i s => simp [Node.isElem] at hp

mutual

theorem nodeIds_eq_nid_cons : ∀ n : Node, nodeIds n = n.nid :: (allDesc n).map Node.nid
  | .elem i t a cs => by
      simp only [nodeIds, allDesc, Node.nid]
      rw [nodeIdsList_eq cs]
  | .text i s => by simp [nodeIds, allDesc, Node.nid]

theorem nodeIdsList_eq : ∀ cs : List Node, nodeIdsList cs = (descList cs).map Node.nid
  | [] => by simp [nodeIdsList, descList]
  | c :: cs => by
      simp only [nodeIdsList, descList, List.map_cons, List.map_append]
      rw [nodeIds_eq_nid_cons c, nodeIdsList_eq cs]
      simp

end

def allNodes (n : Node) : List Node := n :: allDesc n

theorem nodeIds_eq_map (n : Node) : nodeIds n = (allNodes n).map Node.nid := by
  rw [allNodes, List.map_cons, nodeIds_eq_nid_cons]

/-- In a well-formed tree, node identity determines the node. -/
theorem nid_inj {n a b : Node} (hwf : WF n) (ha : a ∈ allNodes n) (hb : b ∈ allNodes n)
    (h : a.nid = b.nid) : a = b := by
  have : ((allNodes n).map Node.nid).Nodup := by rw [← nodeIds_eq_map]; exact hwf
  exact List.inj_on_of_nodup_map this ha hb h

theorem mem_allNodes_of_mem_allDesc {x n : Node} (h : x ∈ allDesc n) : x ∈ allNodes n :=
  List.mem_cons_of_mem _ h

/-- Well-formedness is inherited by subtrees. -/
theorem WF_sub {n E : Node} (hwf : WF n) (hE : E ∈ allDesc n) : WF E := by
  obtain ⟨l1, l2, hseg⟩ := allDesc_segment n E hE
  have hsub : (nodeIds E).Sublist (nodeIds n) := by
    rw [nodeIds_eq_nid_cons n, hseg]
    simp only [List.map_append, List.map_cons]
    rw [nodeIds_eq_nid_cons E]
    refine List.Sublist.cons _ ?_
    refine List.Sublist.trans ?_ (List.sublist_append_right (List.map Node.nid l1) _)
    exact (E.nid :: (allDesc E).map Node.nid).sublist_append_left _
  exact hsub.nodup hwf

/-- The identity of a strict descendant never equals the root's identity in
a well-formed tree; in particular no node is its own strict descendant. -/
theorem not_self_desc {n : Node} (hwf : WF n) : n ∉ allDesc n := by
  intro h
  have h1 : n.nid ∈ (allDesc n).map Node.nid := List.mem_map.mpr ⟨n, h, rfl⟩
  have h2 := hwf
  rw [WF, nodeIds_eq_nid_cons] at h2
  exact (List.nodup_cons.mp h2).1 h1

mutual

/-- In a duplicate-free tree, two strict subtrees sharing a descendant are
equal or nested. -/
theorem comparable_node : ∀ (n : Node), (nodeIds n).Nodup → ∀ E1 E2 x : Node,
    E1 ∈ allDesc n → E2 ∈ allDesc n → x ∈ allDesc E1 → x ∈ allDesc E2 →
    E1 = E2 ∨ E1 ∈ allDesc E2 ∨ E2 ∈ allDesc E1
  | .elem i t a cs => fun hnd => by
      have : (nodeIdsList cs).Nodup := by
        simp only [nodeIds, List.nodup_cons] at hnd
        exact hnd.2
      exact comparable_list cs this
  | .text i s => by simp [allDesc]

theorem comparable_list : ∀ (cs : List Node), (nodeIdsList cs).Nodup → ∀ E1 E2 x : Node,
    E1 ∈ descList cs → E2 ∈ descList cs → x ∈ allDesc E1 → x ∈ allDesc E2 →
    E1 = E2 ∨ E1 ∈ allDesc E2 ∨ E2 ∈ allDesc E1
  | [] => by simp [descList]
  | c :: cs => by
      intro hnd E1 E2 x h1 h2 hx1 hx2
      rw [nodeIdsList] at hnd
      rw [List.nodup_append] at hnd
      obtain ⟨hndc, hndcs, hdisj⟩ := hnd
      have inc_of : ∀ E : Node, (E = c ∨ E ∈ allDesc c) → ∀ y ∈ allDesc E, y ∈ allDesc c := by
        rintro E (rfl | hE) y hy
        · exact hy
        · exact allDesc_trans c E hE y hy
      have nid_of_c : ∀ y : Node, y ∈ allDesc c → y.nid ∈ nodeIds c := by
        intro y hy
        rw [nodeIds_eq_nid_cons]
        exact List.mem_cons_of_mem _ (List.mem_map.mpr ⟨y, hy, rfl⟩)
      have nid_of_cs : ∀ y : Node, y ∈ descList cs → y.nid ∈ nodeIdsList cs := by
        intro y hy
        rw [nodeIdsList_eq]
        exact List.mem_map.mpr ⟨y, hy, rfl⟩
      simp only [descList, List.mem_cons, List.mem_append] at h1 h2
      rcases h1 with h1 | h1 | h1
      · rcases h2 with h2 | h2 | h2
        · exact Or.inl (h1.trans h2.symm)
        · subst h1; exact Or.inr (Or.inr h2)
        · exfalso
          exact hdisj (nid_of_c x (inc_of E1 (Or.inl h1) x hx1)) (nid_of_cs x (descList_trans cs E2 h2 x hx2))
      · rcases h2 with h2 | h2 | h2
        · subst h2; exact Or.inr (Or.inl h1)
        · exact comparable_node c hndc E1 E2 x h1 h2 hx1 hx2
        · exfalso
          exact hdisj (nid_of_c x (inc_of E1 (Or.inr h1) x hx1)) (nid_of_cs x (descList_trans cs E2 h2 x hx2))
      · rcases h2 with h2 | h2 | h2
        · exfalso
          exact hdisj (nid_of_c x (inc_of E2 (Or.inl h2) x hx2)) (nid_of_cs x (descList_trans cs E1 h1 x hx1))
        · exfalso
          exact hdisj (nid_of_c x (inc_of E2 (Or.inr h2) x hx2)) (nid_of_cs x (descList_trans cs E1 h1 x hx1))
        · exact comparable_list cs hndcs E1 E2 x h1 h2 hx1 hx2

end

theorem nodup_allDesc_nid {n : Node} (hwf : WF n) : ((allDesc n).map Node.nid).Nodup := by
  have h := hwf
  rw [WF, nodeIds_eq_nid_cons] at h
  exact (List.nodup_cons.mp h).2

theorem nodup_allDesc {n : Node} (hwf : WF n) : (allDesc n).Nodup :=
  (nodup_allDesc_nid hwf).of_map Node.nid

/- ---------------------------------------------------------------------
The classification pass: step and fold characterisation.
--------------------------------------------------------------------- -/

/-- The identities inserted into `processed_elements` when an element
yields a record: the element itself, all descendant elements, and the
direct-child text nodes. -/
def closureIds (e : Node) : List Nat :=
  e.nid :: (((allDesc e).filter Node.isElem).map Node.nid
    ++ (e.children.filter Node.isText).map Node.nid)

theorem mem_closureIds {x : Nat} {e : Node} :
    x ∈ closureIds e ↔ x = e.nid ∨ x ∈ ((allDesc e).filter Node.isElem).map Node.nid
      ∨ x ∈ (e.children.filter Node.isText).map Node.nid := by
  simp [closureIds]

theorem processElement_skip {uj : String → String → Except Unit String} {base : String}
    {s : ScrapeState} {e : Node} (h : e.nid ∈ s.processed_elements) :
    processElement uj base s e = s := by
  simp [processElement, h]

theorem firstPass_fold (uj : String → String → Except Unit String) (base : String) :
    ∀ (L : List Node) (s : ScrapeState),
    ∃ Δ : List (Node × Record),
      (L.foldl (processElement uj base) s).emitted = s.emitted ++ Δ ∧
      (L.foldl (processElement uj base) s).scraped_data = s.scraped_data ++ Δ.map Prod.snd ∧
      (Δ.map Prod.fst).Sublist L ∧
      (∀ pr ∈ Δ, pr.1.nid ∉ s.processed_elements ∧ (deriveRecord uj base pr.1).1 = some pr.2) ∧
      (∀ x : Nat, x ∈ (L.foldl (processElement uj base) s).processed_elements ↔
        x ∈ s.processed_elements ∨ ∃ pr ∈ Δ, x ∈ closureIds pr.1) := by
  intro L
  induction L with
  | nil => intro s; exact ⟨[], by simp⟩
  | cons e L ih =>
      intro s
      obtain ⟨Δ', h1, h2, h3, h4, h5⟩ := ih (processElement uj base s e)
      rw [List.foldl_cons] at *
      by_cases hsk : e.nid ∈ s.processed_elements
      · refine ⟨Δ', ?_, ?_, h3.cons e, ?_, ?_⟩
        · rw [h1, processElement_skip hsk]
        · rw [h2, processElement_skip hsk]
        · intro pr hpr
          have := h4 pr hpr
          rw [processElement_skip hsk] at this
          exact this
        · intro x
          rw [h5 x, processElement_skip hsk]
      · rcases hdr : deriveRecord uj base e with ⟨orec, warns⟩
        have hstep : processElement uj base s e =
            match orec with
            | some record =>
                { scraped_data := s.scraped_data ++ [record]
                  processed_elements :=
                    insertIds ((e.children.filter Node.isText).map Node.nid)
                      (insertIds (((allDesc e).filter Node.isElem).map Node.nid)
                        (s.processed_elements.insert e.nid))
                  logs := s.logs ++ warns
                  emitted := s.emitted ++ [(e, record)] }
            | none => { s with logs := s.logs ++ warns } := by
          simp only [processElement, hsk, if_neg, hdr]
          cases orec <;> rfl
        cases orec with
        | none =>
            refine ⟨Δ', ?_, ?_, h3.cons e, ?_, ?_⟩
            · rw [h1, hstep]
            · rw [h2, hstep]
            · intro pr hpr
              have := h4 pr hpr
              rw [hstep] at this
              exact this
            · intro x
              rw [h5 x, hstep]
        | some r =>
            have hmemstep : ∀ x : Nat, x ∈ (processElement uj base s e).processed_elements ↔
                x ∈ closureIds e ∨ x ∈ s.processed_elements := by
              intro x
              rw [hstep]
              simp only [mem_insertIds, List.mem_insert_iff, mem_closureIds]
              tauto
            refine ⟨(e, r) :: Δ', ?_, ?_, h3.cons₂ e, ?_, ?_⟩
            · rw [h1, hstep]
              simp
            · rw [h2, hstep]
              simp
            · intro pr hpr
              rcases List.mem_cons.mp hpr with rfl | hpr
              · exact ⟨hsk, by rw [hdr]⟩
              · have hpr' := h4 pr hpr
                refine ⟨fun hin => hpr'.1 ((hmemstep pr.1.nid).mpr (Or.inr hin)), hpr'.2⟩
            · intro x
              rw [h5 x, hmemstep x]
              constructor
              · rintro ((hx | hx) | ⟨pr, hpr, hx⟩)
                · exact Or.inr ⟨(e, r), List.mem_cons_self _ _, hx⟩
                · exact Or.inl hx
                · exact Or.inr ⟨pr, List.mem_cons_of_mem _ hpr, hx⟩
              · rintro (hx | ⟨pr, hpr, hx⟩)
                · exact Or.inl (Or.inr hx)
                · rcases List.mem_cons.mp hpr with rfl | hpr
                  · exact Or.inl (Or.inl hx)
                  · exact Or.inr ⟨pr, hpr, hx⟩

/- ---------------------------------------------------------------------
The recovery pass: step and fold characterisation.
--------------------------------------------------------------------- -/

theorem recoveryStep_skip {s : ScrapeState} {t p : Node}
    (h : t.nid ∈ s.processed_elements) : recoveryStep s (t, p) = s := by
  simp [recoveryStep, h]

theorem recoveryStep_mark {s : ScrapeState} {t p : Node}
    (h1 : t.nid ∉ s.processed_elements)
    (h2 : p.name ∈ NONCONTENT_TAGS ∨ clean_text t.strVal = "" ∨
      ¬(p.nid ∉ s.processed_elements ∧ p.name ∉ PRIMARY_TAGS)) :
    recoveryStep s (t, p) = { s with processed_elements := s.processed_elements.insert t.nid } := by
  by_cases hnc : p.name ∈ NONCONTENT_TAGS
  · simp [recoveryStep, h1, hnc]
  · by_cases hem : clean_text t.strVal = ""
    · simp [recoveryStep, h1, hnc, hem]
    · have hb : ¬(p.nid ∉ s.processed_elements ∧ p.name ∉ PRIMARY_TAGS) := by tauto
      simp [recoveryStep, h1, hnc, hem, hb]

theorem recoveryStep_emit {s : ScrapeState} {t p : Node}
    (h1 : t.nid ∉ s.processed_elements) (h2 : p.name ∉ NONCONTENT_TAGS)
    (h3 : clean_text t.strVal ≠ "") (h4 : p.nid ∉ s.processed_elements)
    (h5 : p.name ∉ PRIMARY_TAGS) :
    recoveryStep s (t, p) =
      { scraped_data := s.scraped_data ++ [text_chunk_record (clean_text t.strVal)]
        processed_elements := s.processed_elements.insert t.nid
        logs := s.logs
        emitted := s.emitted ++ [(t, text_chunk_record (clean_text t.strVal))] } := by
  simp [recoveryStep, h1, h2, h3, h4, h5]

theorem recovery_fold :
    ∀ (T : List (Node × Node)) (s : ScrapeState),
    ∃ Δ : List (Node × Record),
      (T.foldl recoveryStep s).emitted = s.emitted ++ Δ ∧
      (T.foldl recoveryStep s).scraped_data = s.scraped_data ++ Δ.map Prod.snd ∧
      (Δ.map Prod.fst).Sublist (T.map Prod.fst) ∧
      (∀ pr ∈ Δ, ∃ par : Node, (pr.1, par) ∈ T ∧ pr.1.nid ∉ s.processed_elements ∧
        par.nid ∉ s.processed_elements ∧ par.name ∉ NONCONTENT_TAGS ∧ par.name ∉ PRIMARY_TAGS ∧
        clean_text pr.1.strVal ≠ "" ∧ pr.2 = text_chunk_record (clean_text pr.1.strVal)) ∧
      (∀ x : Nat, x ∈ (T.foldl recoveryStep s).processed_elements ↔
        x ∈ s.processed_elements ∨ x ∈ T.map (fun q => q.1.nid)) := by
  intro T
  induction T with
  | nil => intro s; exact ⟨[], by simp⟩
  | cons tp T ih =>
      intro s
      obtain ⟨t, p⟩ := tp
      obtain ⟨Δ', h1, h2, h3, h4, h5⟩ := ih (recoveryStep s (t, p))
      rw [List.foldl_cons] at *
      by_cases hsk : t.nid ∈ s.processed_elements
      · refine ⟨Δ', ?_, ?_, by simpa using h3.cons t, ?_, ?_⟩
        · rw [h1, recoveryStep_skip hsk]
        · rw [h2, recoveryStep_skip hsk]
        · intro pr hpr
          obtain ⟨par, hmem, hres⟩ := h4 pr hpr
          rw [recoveryStep_skip hsk] at hres
          exact ⟨par, List.mem_cons_of_mem _ hmem, hres⟩
        · intro x
          rw [h5 x, recoveryStep_skip hsk]
          simp only [List.map_cons, List.mem_cons]
          constructor
          · tauto
          · rintro (hx | rfl | hx) <;> tauto
      · by_cases hem : p.name ∉ NONCONTENT_TAGS ∧ clean_text t.strVal ≠ "" ∧
            p.nid ∉ s.processed_elements ∧ p.name ∉ PRIMARY_TAGS
        · obtain ⟨he1, he2, he3, he4⟩ := hem
          have hstep := recoveryStep_emit hsk he1 he2 he3 he4
          refine ⟨(t, text_chunk_record (clean_text t.strVal)) :: Δ', ?_, ?_, ?_, ?_, ?_⟩
          · rw [h1, hstep]; simp
          · rw [h2, hstep]; simp
          · simpa using h3.cons₂ t
          · intro pr hpr
            rcases List.mem_cons.mp hpr with rfl | hpr
            · exact ⟨p, List.mem_cons_self _ _, hsk, he3, he1, he4, he2, rfl⟩
            · obtain ⟨par, hmem, hres⟩ := h4 pr hpr
              rw [hstep] at hres
              simp only [List.mem_insert_iff] at hres
              exact ⟨par, List.mem_cons_of_mem _ hmem,
                fun hx => hres.1 (Or.inr hx), fun hx => hres.2.1 (Or.inr hx),
                hres.2.2.1, hres.2.2.2.1, hres.2.2.2.2⟩
          · intro x
            rw [h5 x, hstep]
            simp only [List.map_cons, List.mem_cons, List.mem_insert_iff]
            tauto
        · have hstep : recoveryStep s (t, p) =
              { s with processed_elements := s.processed_elements.insert t.nid } := by
            apply recoveryStep_mark hsk
            tauto
          refine ⟨Δ', ?_, ?_, by simpa using h3.cons t, ?_, ?_⟩
          · rw [h1, hstep]
          · rw [h2, hstep]
          · intro pr hpr
            obtain ⟨par, hmem, hres⟩ := h4 pr hpr
            rw [hstep] at hres
            simp only [List.mem_insert_iff] at hres
            exact ⟨par, List.mem_cons_of_mem _ hmem,
              fun hx => hres.1 (Or.inr hx), fun hx => hres.2.1 (Or.inr hx),
              hres.2.2.1, hres.2.2.2.1, hres.2.2.2.2⟩
          · intro x
            rw [h5 x, hstep]
            simp only [List.map_cons, List.mem_cons, List.mem_insert_iff]
            tauto

theorem processElement_yield {uj : String → String → Except Unit String} {base : String}
    {s : ScrapeState} {e : Node} {r : Record} {w : List String}
    (h1 : e.nid ∉ s.processed_elements) (h2 : deriveRecord uj base e = (some r, w)) :
    processElement uj base s e =
      { scraped_data := s.scraped_data ++ [r]
        processed_elements :=
          insertIds ((e.children.filter Node.isText).map Node.nid)
            (insertIds (((allDesc e).filter Node.isElem).map Node.nid)
              (s.processed_elements.insert e.nid))
        logs := s.logs ++ w
        emitted := s.emitted ++ [(e, r)] } := by
  simp [processElement, h1, h2]

theorem processElement_none_eq {uj : String → String → Except Unit String} {base : String}
    {s : ScrapeState} {e : Node} {w : List String}
    (h1 : e.nid ∉ s.processed_elements) (h2 : deriveRecord uj base e = (none, w)) :
    processElement uj base s e = { s with logs := s.logs ++ w } := by
  simp [processElement, h1, h2]

theorem processElement_yield_processed {uj : String → String → Except Unit String} {base : String}
    {s : ScrapeState} {e : Node} {r : Record} {w : List String}
    (h1 : e.nid ∉ s.processed_elements) (h2 : deriveRecord uj base e = (some r, w)) :
    ∀ x : Nat, x ∈ (processElement uj base s e).processed_elements ↔
      x ∈ closureIds e ∨ x ∈ s.processed_elements := by
  intro x
  rw [processElement_yield h1 h2]
  simp only [mem_insertIds, List.mem_insert_iff, mem_closureIds]
  tauto

theorem mem_elements_found {c E : Node} :
    E ∈ elements_found c ↔ E ∈ allDesc c ∧ E.isElem = true ∧ E.name ∈ PRIMARY_TAGS := by
  simp [elements_found, List.mem_filter, Bool.and_eq_true, decide_eq_true_iff, and_assoc]

theorem nodup_elements_found {c : Node} (hwf : WF c) : (elements_found c).Nodup :=
  (nodup_allDesc hwf).filter _

/-- Pass-1 output characterisation, specialised to the initial state. -/
theorem firstPass_spec (uj : String → String → Except Unit String) (base : String) (c : Node) :
    (firstPass uj base c).scraped_data = (firstPass uj base c).emitted.map Prod.snd ∧
    (((firstPass uj base c).emitted.map Prod.fst).Sublist (elements_found c)) ∧
    (∀ pr ∈ (firstPass uj base c).emitted, (deriveRecord uj base pr.1).1 = some pr.2) ∧
    (∀ x : Nat, x ∈ (firstPass uj base c).processed_elements ↔
      ∃ pr ∈ (firstPass uj base c).emitted, x ∈ closureIds pr.1) := by
  obtain ⟨Δ, h1, h2, h3, h4, h5⟩ := firstPass_fold uj base (elements_found c) initState
  have hΔ : (firstPass uj base c).emitted = Δ := by
    rw [firstPass, h1]; rfl
  refine ⟨?_, ?_, ?_, ?_⟩
  · rw [firstPass] at *
    rw [h2, hΔ]
    rfl
  · rw [hΔ]; exact h3
  · intro pr hpr
    rw [hΔ] at hpr
    exact (h4 pr hpr).2
  · intro x
    rw [firstPass] at *
    rw [h5 x, hΔ]
    simp [initState]

/-- Classified elements of the first pass are never nested: if an element
yields a record, no strict descendant of it yields one. -/
theorem no_nested_classified (uj : String → String → Except Unit String) (base : String)
    {c E1 E2 : Node} (hwf : WF c)
    (h1 : E1 ∈ (firstPass uj base c).emitted.map Prod.fst)
    (h2 : E2 ∈ (firstPass uj base c).emitted.map Prod.fst)
    (hdesc : E2 ∈ allDesc E1) : False := by
  obtain ⟨hsc, hsub, hder, hproc⟩ := firstPass_spec uj base c
  have hE1EF : E1 ∈ elements_found c := hsub.subset h1
  have hE2EF : E2 ∈ elements_found c := hsub.subset h2
  have hE1d : E1 ∈ allDesc c := (mem_elements_found.mp hE1EF).1
  obtain ⟨l1, l2, hseg⟩ := allDesc_segment c E1 hE1d
  have hP1 : (fun n : Node => n.isElem && decide (n.name ∈ PRIMARY_TAGS)) E1 = true := by
    rcases mem_elements_found.mp hE1EF with ⟨_, hi, hn⟩
    simp [hi, hn]
  have hEF : elements_found c =
      (l1.filter (fun n => n.isElem && decide (n.name ∈ PRIMARY_TAGS)))
        ++ E1 :: (((allDesc E1).filter (fun n => n.isElem && decide (n.name ∈ PRIMARY_TAGS)))
        ++ (l2.filter (fun n => n.isElem && decide (n.name ∈ PRIMARY_TAGS)))) := by
    rw [elements_found, hseg]
    simp [List.filter_append, List.filter_cons, hP1]
  set P := fun n : Node => n.isElem && decide (n.name ∈ PRIMARY_TAGS) with hPdef
  set A := l1.filter P
  set B := (allDesc E1).filter P
  set C := l2.filter P
  have hndEF : (elements_found c).Nodup := nodup_elements_found hwf
  rw [hEF] at hndEF
  obtain ⟨hndA, hndR, hdisjA⟩ := List.nodup_append.mp hndEF
  have hE1nA : E1 ∉ A := fun hx => hdisjA hx (List.mem_cons_self _ _)
  have hE1nBC : E1 ∉ B ++ C := (List.nodup_cons.mp hndR).1
  have hE2B : E2 ∈ B := by
    rcases mem_elements_found.mp hE2EF with ⟨_, hi, hn⟩
    exact List.mem_filter.mpr ⟨hdesc, by simp [hPdef, hi, hn]⟩
  have hE2nA : E2 ∉ A := fun hx => hdisjA hx (List.mem_cons_of_mem _ (List.mem_append_left _ hE2B))
  -- decompose the fold
  have hfold : firstPass uj base c =
      (B ++ C).foldl (processElement uj base)
        (processElement uj base (A.foldl (processElement uj base) initState) E1) := by
    rw [firstPass, hEF, List.foldl_append, List.foldl_cons]
  set sA := A.foldl (processElement uj base) initState with hsA
  obtain ⟨ΔA, ha1, ha2, ha3, ha4, ha5⟩ := firstPass_fold uj base A initState
  obtain ⟨ΔT, ht1, ht2, ht3, ht4, ht5⟩ :=
    firstPass_fold uj base (B ++ C) (processElement uj base sA E1)
  have hsAemit : sA.emitted = ΔA := by rw [← hsA] at ha1; rw [ha1]; rfl
  -- the step at E1 must yield a record
  have hnotA : E1 ∉ ΔA.map Prod.fst := fun hx => hE1nA (ha3.subset hx)
  have hnotT : E1 ∉ ΔT.map Prod.fst := fun hx => hE1nBC (ht3.subset hx)
  by_cases hskE1 : E1.nid ∈ sA.processed_elements
  · have hstep : processElement uj base sA E1 = sA := processElement_skip hskE1
    rw [hfold] at h1
    rw [ht1, hstep, hsAemit] at h1
    simp only [List.map_append, List.mem_append] at h1
    tauto
  · rcases hdr : deriveRecord uj base E1 with ⟨orec, w⟩
    cases orec with
    | none =>
        have hstep := processElement_none_eq hskE1 hdr
        rw [hfold] at h1
        rw [ht1, hstep] at h1
        simp only [hsAemit, List.map_append, List.mem_append] at h1
        rcases h1 with h1 | h1
        · exact hnotA h1
        · exact hnotT h1
    | some r =>
        have hstepproc := processElement_yield_processed hskE1 hdr
        have hE2closure : E2.nid ∈ closureIds E1 := by
          rw [mem_closureIds]
          refine Or.inr (Or.inl ?_)
          refine List.mem_map.mpr ⟨E2, ?_, rfl⟩
          exact List.mem_filter.mpr ⟨hdesc, (mem_elements_found.mp hE2EF).2.1⟩
        -- locate E2 in the emitted list
        rw [hfold] at h2
        rw [ht1, processElement_yield hskE1 hdr] at h2
        simp only [hsAemit, List.map_append, List.mem_append, List.map_cons,
          List.mem_singleton, List.map_nil] at h2
        rcases h2 with (h2 | h2) | h2
        · exact hE2nA (ha3.subset h2)
        · -- E2 = E1 : E1 would be its own strict descendant
          rw [h2] at hdesc
          exact not_self_desc (WF_sub hwf hE1d) hdesc
        · obtain ⟨pr, hpr, hfst⟩ := List.mem_map.mp h2
          have := (ht4 pr hpr).1
          rw [hfst] at this
          exact this ((hstepproc E2.nid).mpr (Or.inl hE2closure))

/- ---------------------------------------------------------------------
Record-type facts.
--------------------------------------------------------------------- -/

theorem heading_rtype_ne (s : String) : "heading_" ++ s ≠ "text_chunk" := by
  intro h
  have hd : ("heading_" ++ s).data = "text_chunk".data := by rw [h]
  have : ("heading_" ++ s).data = "heading_".data ++ s.data := rfl
  rw [this] at hd
  simp only [show "heading_".data = ['h', 'e', 'a', 'd', 'i', 'n', 'g', '_'] from rfl,
    show "text_chunk".data = ['t', 'e', 'x', 't', '_', 'c', 'h', 'u', 'n', 'k'] from rfl,
    List.cons_append, List.cons.injEq] at hd
  exact absurd hd.1 (by decide)

set_option maxHeartbeats 1000000 in
/-- No record of the classification pass is a `text_chunk`. -/
theorem deriveRecord_rtype_ne {uj : String → String → Except Unit String} {base : String}
    {e : Node} {r : Record} (h : (deriveRecord uj base e).1 = some r) :
    r.rtype ≠ "text_chunk" := by
  unfold deriveRecord at h
  simp only [] at h
  repeat' split at h
  all_goals
    first
    | exact Option.noConfusion h
    | (rw [← Option.some.inj h]; first | exact heading_rtype_ne _ | simp)

/- ---------------------------------------------------------------------
Claim theorems.
--------------------------------------------------------------------- -/

/-- C5: the output sequence is exactly the classified records (in document
order: their source elements form a subsequence of the document-order
primary-element enumeration) followed by the recovered `text_chunk`
records (in document order over the text nodes); no recovered record
appears before any classified record, and the two groups are disjoint in
kind. -/
theorem c5_output_ordering (uj : String → String → Except Unit String) (base : String)
    (container : Node) :
    ∃ recovered : List (Node × Record),
      (scrape_dynamic_content uj base container).emitted =
        (firstPass uj base container).emitted ++ recovered ∧
      (scrape_dynamic_content uj base container).scraped_data =
        (firstPass uj base container).scraped_data ++ recovered.map Prod.snd ∧
      (firstPass uj base container).scraped_data =
        (firstPass uj base container).emitted.map Prod.snd ∧
      (((firstPass uj base container).emitted.map Prod.fst).Sublist (elements_found container)) ∧
      ((recovered.map Prod.fst).Sublist ((textsUnder container).map Prod.fst)) ∧
      (∀ r ∈ (firstPass uj base container).scraped_data, r.rtype ≠ "text_chunk") ∧
      (∀ pr ∈ recovered, pr.2.rtype = "text_chunk") := by
  obtain ⟨Δ, h1, h2, h3, h4, h5⟩ := recovery_fold (textsUnder container) (firstPass uj base container)
  obtain ⟨hs1, hs2, hs3, hs4⟩ := firstPass_spec uj base container
  refine ⟨Δ, h1, h2, hs1, hs2, h3, ?_, ?_⟩
  · intro r hr
    rw [hs1] at hr
    obtain ⟨pr, hpr, hsnd⟩ := List.mem_map.mp hr
    exact hsnd ▸ deriveRecord_rtype_ne (hs3 pr hpr)
  · intro pr hpr
    obtain ⟨par, hres⟩ := h4 pr hpr
    rw [hres.2.2.2.2.2.2]
    rfl

/-- C4 (amended): the ConsumedSet only grows during the recovery pass, but
it IS mutated there — the identities added during recovery are exactly the
identities of the text nodes of the container (no identity is ever
removed, and no element identity is added). -/
theorem c4_consumed_set_growth (uj : String → String → Except Unit String) (base : String)
    (container : Node) :
    (∀ x : Nat, x ∈ (firstPass uj base container).processed_elements →
       x ∈ (scrape_dynamic_content uj base container).processed_elements) ∧
    (∀ x : Nat, x ∈ (scrape_dynamic_content uj base container).processed_elements ↔
       x ∈ (firstPass uj base container).processed_elements ∨
       x ∈ (textsUnder container).map (fun q => q.1.nid)) := by
  obtain ⟨Δ, h1, h2, h3, h4, h5⟩ := recovery_fold (textsUnder container) (firstPass uj base container)
  exact ⟨fun x hx => (h5 x).mpr (Or.inl hx), h5⟩

/-- A concrete `urljoin` collaborator for witnesses: plain concatenation,
never failing. -/
def ujW : String → String → Except Unit String := fun b r => Except.ok (b ++ r)

/-- `<body><div>x</div></body>`: node 2 is the text node `x`. -/
def treeC4 : Node := Node.elem 0 "body" [] [Node.elem 1 "div" [] [Node.text 2 "x"]]

/-- C4 counterexample: on `<body><div>x</div></body>` the recovery pass
adds the text node identity 2 to the ConsumedSet, so the set's membership
when recovery ends differs from its membership when recovery begins. -/
theorem c4_counterexample :
    (2 : Nat) ∈ (scrape_dynamic_content ujW "http://b/" treeC4).processed_elements ∧
    (2 : Nat) ∉ (firstPass ujW "http://b/" treeC4).processed_elements := by
  decide

/-- C9: if the recovery pass raises while handling its `k`-th text node,
the returned data is all records of the first pass followed by exactly the
`text_chunk` records recovered before the failure — no already-appended
record is lost. -/
theorem c9_recovery_failure_partial (uj : String → String → Except Unit String) (base : String)
    (container : Node) (k : Nat) :
    ∃ chunks : List Record,
      (scrapeRecoveryFail uj base container k).scraped_data =
        (firstPass uj base container).scraped_data ++ chunks ∧
      ∀ r ∈ chunks, r.rtype = "text_chunk" := by
  obtain ⟨Δ, h1, h2, h3, h4, h5⟩ :=
    recovery_fold ((textsUnder container).take k) (firstPass uj base container)
  refine ⟨Δ.map Prod.snd, h2, ?_⟩
  intro r hr
  obtain ⟨pr, hpr, hsnd⟩ := List.mem_map.mp hr
  obtain ⟨par, hres⟩ := h4 pr hpr
  rw [← hsnd, hres.2.2.2.2.2.2]
  rfl

/-- The effect of one classification step on the data-carrying fields does
not depend on the log field. -/
theorem processElement_cong {uj : String → String → Except Unit String} {base : String}
    {s s' : ScrapeState} (e : Node)
    (h1 : s.scraped_data = s'.scraped_data) (h2 : s.emitted = s'.emitted)
    (h3 : s.processed_elements = s'.processed_elements) :
    (processElement uj base s e).scraped_data = (processElement uj base s' e).scraped_data ∧
    (processElement uj base s e).emitted = (processElement uj base s' e).emitted ∧
    (processElement uj base s e).processed_elements =
      (processElement uj base s' e).processed_elements := by
  by_cases hsk : e.nid ∈ s.processed_elements
  · rw [processElement_skip hsk, processElement_skip (h3 ▸ hsk)]
    exact ⟨h1, h2, h3⟩
  · have hsk' : e.nid ∉ s'.processed_elements := h3 ▸ hsk
    rcases hdr : deriveRecord uj base e with ⟨orec, w⟩
    cases orec with
    | none =>
        rw [processElement_none_eq hsk hdr, processElement_none_eq hsk' hdr]
        exact ⟨h1, h2, h3⟩
    | some r =>
        rw [processElement_yield hsk hdr, processElement_yield hsk' hdr]
        exact ⟨by rw [h1], by rw [h2], by rw [h3]⟩

theorem firstPassE_eq_filter (raises : Node → Bool) (uj : String → String → Except Unit String)
    (base : String) :
    ∀ (L : List Node) (s s' : ScrapeState),
    s.scraped_data = s'.scraped_data → s.emitted = s'.emitted →
    s.processed_elements = s'.processed_elements →
    (L.foldl (processElementE raises uj base) s).scraped_data =
      ((L.filter (fun e => !raises e)).foldl (processElement uj base) s').scraped_data ∧
    (L.foldl (processElementE raises uj base) s).emitted =
      ((L.filter (fun e => !raises e)).foldl (processElement uj base) s').emitted ∧
    (L.foldl (processElementE raises uj base) s).processed_elements =
      ((L.filter (fun e => !raises e)).foldl (processElement uj base) s').processed_elements := by
  intro L
  induction L with
  | nil => intro s s' h1 h2 h3; exact ⟨h1, h2, h3⟩
  | cons e L ih =>
      intro s s' h1 h2 h3
      by_cases hr : raises e
      · have hf : (e :: L).filter (fun e => !raises e) = L.filter (fun e => !raises e) := by
          simp [List.filter_cons, hr]
        rw [List.foldl_cons, hf]
        have hfields : (processElementE raises uj base s e).scraped_data = s.scraped_data ∧
            (processElementE raises uj base s e).emitted = s.emitted ∧
            (processElementE raises uj base s e).processed_elements = s.processed_elements := by
          unfold processElementE
          by_cases hsk : e.nid ∈ s.processed_elements
          · simp [hsk]
          · simp [hsk, hr]
        exact ih _ _ (hfields.1.trans h1) (hfields.2.1.trans h2) (hfields.2.2.trans h3)
      · have hf : (e :: L).filter (fun e => !raises e) = e :: L.filter (fun e => !raises e) := by
          simp [List.filter_cons, hr]
        rw [List.foldl_cons, hf, List.foldl_cons]
        have hstep : processElementE raises uj base s e = processElement uj base s e := by
          unfold processElementE
          by_cases hsk : e.nid ∈ s.processed_elements
          · rw [if_pos hsk, processElement_skip hsk]
          · rw [if_neg hsk, if_neg (by simp [hr])]
        rw [hstep]
        obtain ⟨g1, g2, g3⟩ := processElement_cong e h1 h2 h3
        exact ih _ _ g1 g2 g3

/-- C8: an error while deriving one element's record is contained at
per-element granularity — the erroring elements are simply skipped and the
walk over the remaining elements completes, producing exactly the records
(and consumed-set) of the pass run on the non-erroring elements. -/
theorem c8_per_element_error_containment (raises : Node → Bool)
    (uj : String → String → Except Unit String) (base : String) (container : Node) :
    (firstPassE raises uj base container).scraped_data =
      (((elements_found container).filter (fun e => !raises e)).foldl
        (processElement uj base) initState).scraped_data ∧
    (firstPassE raises uj base container).emitted =
      (((elements_found container).filter (fun e => !raises e)).foldl
        (processElement uj base) initState).emitted ∧
    (firstPassE raises uj base container).processed_elements =
      (((elements_found container).filter (fun e => !raises e)).foldl
        (processElement uj base) initState).processed_elements :=
  firstPassE_eq_filter raises uj base (elements_found container) initState initState rfl rfl rfl

/-- C6: for an `a` element with a present, non-empty `href` whose
resolution succeeds, the emitted link record's text is the first non-empty
value of: cleaned text content, cleaned `title` attribute, resolved
absolute URL (`pyOrS` is exactly Python's `x or y` fallback on strings);
the record is appended to the output. -/
theorem c6_link_text_fallback (uj : String → String → Except Unit String) (base : String)
    (s : ScrapeState) (e : Node) (href u : String)
    (htag : e.name = "a") (hhref : e.attr "href" = some href) (hne : href ≠ "")
    (hok : uj base href = Except.ok u) (hproc : e.nid ∉ s.processed_elements) :
    (processElement uj base s e).scraped_data = s.scraped_data ++
      [⟨"link", RData.linkD
        (pyOrS (clean_text e.get_text) (pyOrS (clean_text (e.attrD "title" "")) u)) u⟩] := by
  have hdr : deriveRecord uj base e =
      (some ⟨"link", RData.linkD
        (pyOrS (clean_text e.get_text) (pyOrS (clean_text (e.attrD "title" "")) u)) u⟩, []) := by
    unfold deriveRecord
    rw [htag, hhref]
    simp [isHeadingTag, hne, hok]
  rw [processElement_yield hproc hdr]

/-- C6 witness: `<a href="/x">` with no text and no title yields `text`
equal to the resolved absolute URL. -/
theorem c6_witness :
    (processElement ujW "https://ex.com" initState (Node.elem 1 "a" [("href", "/x")] [])).scraped_data
      = [⟨"link", RData.linkD "https://ex.com/x" "https://ex.com/x"⟩] :=
  (c6_link_text_fallback ujW "https://ex.com" initState (Node.elem 1 "a" [("href", "/x")] [])
    "/x" "https://ex.com/x" rfl rfl (by decide) rfl (by decide)).trans (by decide)

/-- C7: a URL-resolution failure is non-fatal — the link (resp. image)
record is still emitted with the raw unresolved string as its URL, a
warning is appended to the log, and the walk continues over the remaining
elements exactly as the fold prescribes. -/
theorem c7_resolution_failure_nonfatal (uj : String → String → Except Unit String) (base : String)
    (ea eimg : Node) (href src : String)
    (hta : ea.name = "a") (hha : ea.attr "href" = some href) (hnea : href ≠ "")
    (hfa : uj base href = Except.error ())
    (hti : eimg.name = "img")
    (hsi : pyOrOpt (eimg.attr "data-src") (eimg.attr "src") = some src)
    (hnei : src ≠ "") (hfi : uj base src = Except.error ()) :
    (∀ s : ScrapeState, ea.nid ∉ s.processed_elements →
      (processElement uj base s ea).scraped_data = s.scraped_data ++
        [⟨"link", RData.linkD
          (pyOrS (clean_text ea.get_text) (pyOrS (clean_text (ea.attrD "title" "")) href)) href⟩] ∧
      (processElement uj base s ea).logs = s.logs ++
        ["[!] Warning: Could not create absolute URL for href. Using original href."]) ∧
    (∀ s : ScrapeState, eimg.nid ∉ s.processed_elements →
      (processElement uj base s eimg).scraped_data = s.scraped_data ++
        [⟨"image", RData.imageD src (clean_text (eimg.attrD "alt" ""))⟩] ∧
      (processElement uj base s eimg).logs = s.logs ++
        ["[!] Warning: Could not create absolute URL for src. Using original src."]) ∧
    (∀ (pre suf : List Node) (s : ScrapeState),
      (pre ++ ea :: suf).foldl (processElement uj base) s =
        suf.foldl (processElement uj base)
          (processElement uj base (pre.foldl (processElement uj base) s) ea)) := by
  have hdra : deriveRecord uj base ea =
      (some ⟨"link", RData.linkD
        (pyOrS (clean_text ea.get_text) (pyOrS (clean_text (ea.attrD "title" "")) href)) href⟩,
       ["[!] Warning: Could not create absolute URL for href. Using original href."]) := by
    unfold deriveRecord
    rw [hta, hha]
    simp [isHeadingTag, hnea, hfa]
  have hdri : deriveRecord uj base eimg =
      (some ⟨"image", RData.imageD src (clean_text (eimg.attrD "alt" ""))⟩,
       ["[!] Warning: Could not create absolute URL for src. Using original src."]) := by
    unfold deriveRecord
    rw [hti, hsi]
    simp [isHeadingTag, hnei, hfi]
  refine ⟨?_, ?_, ?_⟩
  · intro s hs
    rw [processElement_yield hs hdra]
    exact ⟨rfl, rfl⟩
  · intro s hs
    rw [processElement_yield hs hdri]
    exact ⟨rfl, rfl⟩
  · intro pre suf s
    rw [List.foldl_append, List.foldl_cons]

/-- A concrete always-failing `urljoin`, modelling a resolver that raises
`ValueError`. -/
def ujFail : String → String → Except Unit String := fun _ _ => Except.error ()

/-- C7 witness: with a failing resolver, `<a href="/x">x</a>` and
`<img src="/i.png">` still produce records carrying the raw reference, and
a warning is logged. -/
theorem c7_witness :
    (processElement ujFail "https://ex.com" initState
        (Node.elem 1 "a" [("href", "/x")] [Node.text 2 "x"])).scraped_data
      = [⟨"link", RData.linkD "x" "/x"⟩] ∧
    (processElement ujFail "https://ex.com" initState
        (Node.elem 3 "img" [("src", "/i.png")] [])).scraped_data
      = [⟨"image", RData.imageD "/i.png" ""⟩] ∧
    (processElement ujFail "https://ex.com" initState
        (Node.elem 1 "a" [("href", "/x")] [Node.text 2 "x"])).logs
      = ["[!] Warning: Could not create absolute URL for href. Using original href."] := by
  have h := c7_resolution_failure_nonfatal ujFail "https://ex.com"
    (Node.elem 1 "a" [("href", "/x")] [Node.text 2 "x"])
    (Node.elem 3 "img" [("src", "/i.png")] []) "/x" "/i.png"
    rfl rfl (by decide) rfl rfl rfl (by decide) rfl
  obtain ⟨ha, hi, hcont⟩ := h
  refine ⟨((ha initState (by decide)).1).trans (by decide), ?_, ?_⟩
  · exact ((hi initState (by decide)).1).trans (by decide)
  · exact ((ha initState (by decide)).2).trans (by decide)

/-- C10: for an `img` whose `data-src` attribute is present but empty, the
source value falls through to the `src` attribute (Python `'' or x` is
`x`): if `src` is non-empty an image record is produced with `src`
resolved, and if `src` is absent or empty no record is produced. -/
theorem c10_img_empty_data_src (uj : String → String → Except Unit String) (base : String)
    (e : Node) (htag : e.name = "img") (hds : e.attr "data-src" = some "") :
    (pyOrOpt (e.attr "data-src") (e.attr "src") = e.attr "src") ∧
    ((e.attr "src" = none ∨ e.attr "src" = some "") → (deriveRecord uj base e).1 = none) ∧
    (∀ sv : String, e.attr "src" = some sv → sv ≠ "" →
      (deriveRecord uj base e).1 =
        some ⟨"image", RData.imageD
          (match uj base sv with
           | .ok u => u
           | .error _ => sv)
          (clean_text (e.attrD "alt" ""))⟩) := by
  have hfall : pyOrOpt (e.attr "data-src") (e.attr "src") = e.attr "src" := by
    rw [hds]
    simp [pyOrOpt]
  refine ⟨hfall, ?_, ?_⟩
  · intro hsrc
    unfold deriveRecord
    rw [htag, hfall]
    rcases hsrc with hsrc | hsrc <;> rw [hsrc] <;> simp [isHeadingTag]
  · intro sv hsv hne
    unfold deriveRecord
    rw [htag, hfall, hsv]
    simp only [isHeadingTag, hne]
    rcases hu : uj base sv with u | u <;> simp [isHeadingTag, hne, hu]

/-- C10 witness: `<img data-src="" src="/i.png">` yields an image record
with the resolved `src`; `<img data-src="" src="">` and
`<img data-src="">` yield none. -/
theorem c10_witness :
    (deriveRecord ujW "https://ex.com" (Node.elem 1 "img" [("data-src", ""), ("src", "/i.png")] [])).1
      = some ⟨"image", RData.imageD "https://ex.com/i.png" ""⟩ ∧
    (deriveRecord ujW "https://ex.com" (Node.elem 2 "img" [("data-src", ""), ("src", "")] [])).1
      = none ∧
    (deriveRecord ujW "https://ex.com" (Node.elem 3 "img" [("data-src", "")] [])).1 = none := by
  refine ⟨?_, ?_, ?_⟩
  · exact ((c10_img_empty_data_src ujW "https://ex.com"
      (Node.elem 1 "img" [("data-src", ""), ("src", "/i.png")] []) rfl rfl).2.2
      "/i.png" rfl (by decide)).trans (by decide)
  · exact (c10_img_empty_data_src ujW "https://ex.com"
      (Node.elem 2 "img" [("data-src", ""), ("src", "")] []) rfl rfl).2.1 (Or.inr rfl)
  · exact (c10_img_empty_data_src ujW "https://ex.com"
      (Node.elem 3 "img" [("data-src", "")] []) rfl rfl).2.1 (Or.inl rfl)

/-- C2 (amended): when an element yields a record, the ConsumedSet after
the element is processed contains the element's identity, the identity of
every descendant ELEMENT at any depth, and the identities of the
DIRECT-CHILD text nodes — but (per the counterexample) not in general the
identities of deeper descendant text nodes. -/
theorem c2_consumed_closure (uj : String → String → Except Unit String) (base : String)
    (s : ScrapeState) (e : Node) (r : Record) (w : List String)
    (h1 : e.nid ∉ s.processed_elements) (h2 : deriveRecord uj base e = (some r, w)) :
    e.nid ∈ (processElement uj base s e).processed_elements ∧
    (∀ d ∈ allDesc e, d.isElem = true →
      d.nid ∈ (processElement uj base s e).processed_elements) ∧
    (∀ t ∈ e.children, t.isText = true →
      t.nid ∈ (processElement uj base s e).processed_elements) := by
  have hm := processElement_yield_processed h1 h2
  refine ⟨(hm e.nid).mpr (Or.inl (mem_closureIds.mpr (Or.inl rfl))), ?_, ?_⟩
  · intro d hd hde
    exact (hm d.nid).mpr (Or.inl (mem_closureIds.mpr (Or.inr (Or.inl
      (List.mem_map.mpr ⟨d, List.mem_filter.mpr ⟨hd, hde⟩, rfl⟩)))))
  · intro t ht hte
    exact (hm t.nid).mpr (Or.inl (mem_closureIds.mpr (Or.inr (Or.inr
      (List.mem_map.mpr ⟨t, List.mem_filter.mpr ⟨ht, hte⟩, rfl⟩)))))

/-- `<p><b>x</b></p>` — a paragraph with a bold child whose text sits at
depth two below the paragraph. -/
def pElemC2 : Node := Node.elem 1 "p" [] [Node.elem 2 "b" [] [Node.text 3 "x"]]

/-- C2 counterexample: the paragraph of `pElemC2` yields a record, the
text node (identity 3) is a descendant at depth two, yet after the element
is processed its identity is NOT in the ConsumedSet (the source marks only
direct-child text nodes, `find_all(string=True, recursive=False)`). -/
theorem c2_counterexample :
    (deriveRecord ujW "http://b/" pElemC2).1.isSome = true ∧
    (Node.text 3 "x") ∈ allDesc pElemC2 ∧
    (Node.text 3 "x").isText = true ∧
    (3 : Nat) ∉ (processElement ujW "http://b/" initState pElemC2).processed_elements := by
  decide

/-- C2 witness (for the amended statement): processing `pElemC2` marks the
element (1) and the descendant element (2) as consumed. -/
theorem c2_witness :
    (1 : Nat) ∈ (processElement ujW "http://b/" initState pElemC2).processed_elements ∧
    (2 : Nat) ∈ (processElement ujW "http://b/" initState pElemC2).processed_elements :=
  ⟨(c2_consumed_closure ujW "http://b/" initState pElemC2 ⟨"paragraph", RData.strD "x"⟩ []
      (by decide) (by decide)).1,
   (c2_consumed_closure ujW "http://b/" initState pElemC2 ⟨"paragraph", RData.strD "x"⟩ []
      (by decide) (by decide)).2.1 (Node.elem 2 "b" [] [Node.text 3 "x"]) (by decide) rfl⟩

/- ---------------------------------------------------------------------
Helpers shared by the duplication/completeness claims.
--------------------------------------------------------------------- -/

theorem not_text_of_elem {n : Node} (h1 : n.isElem = true) (h2 : n.isText = true) : False := by
  cases n <;> simp [Node.isElem, Node.isText] at h1 h2

theorem nodup_texts_fst {c : Node} (hwf : WF c) : ((textsUnder c).map Prod.fst).Nodup := by
  rw [textsUnder_fst]
  exact (nodup_allDesc hwf).filter _

theorem mem_allNodes_cases {c p : Node} (h : p = c ∨ p ∈ allDesc c) : p ∈ allNodes c := by
  rcases h with rfl | h
  · exact List.mem_cons_self _ _
  · exact List.mem_cons_of_mem _ h

theorem closure_of_direct_text {E t : Node} (h1 : t ∈ E.children) (h2 : t.isText = true) :
    t.nid ∈ closureIds E :=
  mem_closureIds.mpr (Or.inr (Or.inr (List.mem_map.mpr ⟨t, List.mem_filter.mpr ⟨h1, h2⟩, rfl⟩)))

theorem closure_of_desc_elem {E d : Node} (h1 : d ∈ allDesc E) (h2 : d.isElem = true) :
    d.nid ∈ closureIds E :=
  mem_closureIds.mpr (Or.inr (Or.inl (List.mem_map.mpr ⟨d, List.mem_filter.mpr ⟨h1, h2⟩, rfl⟩)))

/-- Identity-level membership in a subtree's text descendants yields an
actual parent pair, in a well-formed tree. -/
theorem textdesc_pair {c E t : Node} (hwf : WF c) (hE : E ∈ allDesc c) (ht : t ∈ allNodes c)
    (h : t.nid ∈ (textsUnder E).map (fun q => q.1.nid)) : ∃ q, (t, q) ∈ textsUnder E := by
  obtain ⟨⟨t', q⟩, hpr, hnid⟩ := List.mem_map.mp h
  have hfst : t' ∈ (textsUnder E).map Prod.fst := List.mem_map.mpr ⟨(t', q), hpr, rfl⟩
  rw [textsUnder_fst] at hfst
  have h1 : t' ∈ allDesc E := (List.mem_filter.mp hfst).1
  have h2 : t' ∈ allDesc c := allDesc_trans c E hE t' h1
  have heq : t' = t := nid_inj hwf (mem_allNodes_of_mem_allDesc h2) ht hnid
  exact ⟨q, heq ▸ hpr⟩

/-- If an element identity lies in the consumption closure of an element
`E` of a well-formed tree, the node is `E` itself or a descendant element
of `E`. -/
theorem elem_mem_closure {c E p : Node} (hwf : WF c) (hE : E ∈ allDesc c)
    (hploc : p = c ∨ p ∈ allDesc c) (hpe : p.isElem = true)
    (h : p.nid ∈ closureIds E) : p = E ∨ p ∈ allDesc E := by
  have hpn : p ∈ allNodes c := mem_allNodes_cases hploc
  rcases mem_closureIds.mp h with h | h | h
  · exact Or.inl (nid_inj hwf hpn (mem_allNodes_of_mem_allDesc hE) h)
  · obtain ⟨d, hd, hnid⟩ := List.mem_map.mp h
    have hd1 : d ∈ allDesc E := (List.mem_filter.mp hd).1
    have hd2 : d ∈ allDesc c := allDesc_trans c E hE d hd1
    have heq : d = p := nid_inj hwf (mem_allNodes_of_mem_allDesc hd2) hpn hnid
    exact Or.inr (heq ▸ hd1)
  · exfalso
    obtain ⟨d, hd, hnid⟩ := List.mem_map.mp h
    have hdt : d.isText = true := (List.mem_filter.mp hd).2
    have hdA : d ∈ allDesc E := mem_children_allDesc (List.mem_filter.mp hd).1
    have hd2 : d ∈ allDesc c := allDesc_trans c E hE d hdA
    have heq : d = p := nid_inj hwf (mem_allNodes_of_mem_allDesc hd2) hpn hnid
    exact not_text_of_elem hpe (heq ▸ hdt)

/-- C3: no record in the final output (classified or recovered) derives
from a descendant of an element that yielded a record in the first pass. -/
theorem c3_no_descendant_derivation (uj : String → String → Except Unit String) (base : String)
    {c E d : Node} (hwf : WF c)
    (hE : E ∈ (firstPass uj base c).emitted.map Prod.fst)
    (hd : d ∈ allDesc E) :
    d ∉ (scrape_dynamic_content uj base c).emitted.map Prod.fst := by
  intro hmem
  obtain ⟨Δ, h1, h2, h3, h4, h5⟩ := recovery_fold (textsUnder c) (firstPass uj base c)
  obtain ⟨hs1, hs2, hs3, hs4⟩ := firstPass_spec uj base c
  have hEa : E ∈ allDesc c := (mem_elements_found.mp (hs2.subset hE)).1
  have hscr : scrape_dynamic_content uj base c =
      (textsUnder c).foldl recoveryStep (firstPass uj base c) := rfl
  rw [hscr, h1, List.map_append, List.mem_append] at hmem
  rcases hmem with hmem | hmem
  · exact no_nested_classified uj base hwf hE hmem hd
  · obtain ⟨pr, hpr, hfst⟩ := List.mem_map.mp hmem
    obtain ⟨par, hparT, hdnid, hparnid, _hnc, _hpt, _hne, _hrec⟩ := h4 pr hpr
    rw [hfst] at hparT hdnid
    obtain ⟨hdt, hpare, hdch, hparloc⟩ := textsUnder_parent c d par hparT
    have hdtd : d ∈ (textsUnder E).map Prod.fst := by
      rw [textsUnder_fst]
      exact List.mem_filter.mpr ⟨hd, hdt⟩
    obtain ⟨⟨d2, p'⟩, hp'mem, hd2⟩ := List.mem_map.mp hdtd
    simp only [] at hd2
    rw [hd2] at hp'mem
    have hp'T : (d, p') ∈ textsUnder c := textsUnder_sub c E hEa (d, p') hp'mem
    have hpar_eq : par = p' := key_determines _ (nodup_texts_fst hwf) hparT hp'T
    obtain ⟨prE, hprE, hfstE⟩ := List.mem_map.mp hE
    have hproc_of : ∀ x : Nat, x ∈ closureIds E → x ∈ (firstPass uj base c).processed_elements :=
      fun x hx => (hs4 x).mpr ⟨prE, hprE, hfstE ▸ hx⟩
    obtain ⟨_, hp'e, hdch', hp'loc⟩ := textsUnder_parent E d p' hp'mem
    rcases hp'loc with rfl | hp'desc
    · exact hdnid (hproc_of d.nid (closure_of_direct_text hdch' hdt))
    · exact hparnid (hpar_eq ▸ hproc_of p'.nid (closure_of_desc_elem hp'desc hp'e))

def treeC3 : Node := Node.elem 0 "body" [] [pElemC2]

/-- C3 witness: in `<body><p><b>x</b></p></body>` the paragraph yields a
record and its descendant `<b>` element sources no output record. -/
theorem c3_witness :
    WF treeC3 ∧
    pElemC2 ∈ (firstPass ujW "http://b/" treeC3).emitted.map Prod.fst ∧
    (Node.elem 2 "b" [] [Node.text 3 "x"]) ∈ allDesc pElemC2 ∧
    (Node.elem 2 "b" [] [Node.text 3 "x"])
      ∉ (scrape_dynamic_content ujW "http://b/" treeC3).emitted.map Prod.fst :=
  ⟨by decide, by decide, by decide,
    @c3_no_descendant_derivation ujW "http://b/" treeC3 pElemC2
      (Node.elem 2 "b" [] [Node.text 3 "x"]) (by decide) (by decide) (by decide)⟩

/-- The number of output records that represent the text node with
identity `tid`: classified records whose source element has a text
descendant with that identity, plus recovered `text_chunk` records sourced
from that identity. -/
def representedCount (uj : String → String → Except Unit String) (base : String)
    (container : Node) (tid : Nat) : Nat :=
  ((firstPass uj base container).emitted.filter
      (fun pr => decide (tid ∈ (textsUnder pr.1).map (fun q => q.1.nid)))).length
  + (((scrape_dynamic_content uj base container).emitted.drop
      (firstPass uj base container).emitted.length).filter
      (fun pr => pr.1.nid == tid)).length

/-- `<body><a>hello</a></body>`: an `a` element with no `href`, containing
a text node (identity 2). -/
def treeC1 : Node := Node.elem 0 "body" [] [Node.elem 1 "a" [] [Node.text 2 "hello"]]

/-- C1 counterexample: in `<body><a>hello</a></body>` the text node
`hello` is non-empty after cleaning, its parent `a` is not a non-content
container, and it is not consumed by the first pass (the `a` has no `href`
and yields no record) — yet it is represented in ZERO output records: the
recovery pass refuses to emit because the parent's tag is in the primary
tag set. -/
theorem c1_counterexample :
    WF treeC1 ∧
    (Node.text 2 "hello", Node.elem 1 "a" [] [Node.text 2 "hello"]) ∈ textsUnder treeC1 ∧
    clean_text (Node.text 2 "hello").strVal ≠ "" ∧
    (Node.elem 1 "a" [] [Node.text 2 "hello"]).name ∉ NONCONTENT_TAGS ∧
    (Node.text 2 "hello").nid ∉ (firstPass ujW "http://b/" treeC1).processed_elements ∧
    representedCount ujW "http://b/" treeC1 2 = 0 := by
  decide

/-- C1 (amended): a non-empty, non-markup, non-consumed text node is
represented in AT MOST one output record, and in EXACTLY one when its
parent's tag is additionally not in the primary tag set.  (When the parent
is an unclassified primary-tag element the node can be represented zero
times, per the counterexample.) -/
theorem c1_completeness_amended (uj : String → String → Except Unit String) (base : String)
    {container t p : Node} (hwf : WF container)
    (hmem : (t, p) ∈ textsUnder container)
    (hne : clean_text t.strVal ≠ "")
    (hpar : p.name ∉ NONCONTENT_TAGS)
    (hcons : t.nid ∉ (firstPass uj base container).processed_elements) :
    representedCount uj base container t.nid ≤ 1 ∧
    (p.name ∉ PRIMARY_TAGS → representedCount uj base container t.nid = 1) := by
  obtain ⟨hs1, hs2, hs3, hs4⟩ := firstPass_spec uj base container
  obtain ⟨htt, hpe, htch, hploc⟩ := textsUnder_parent container t p hmem
  have htf : t ∈ (textsUnder container).map Prod.fst := List.mem_map.mpr ⟨(t, p), hmem, rfl⟩
  have htd : t ∈ allDesc container := by
    rw [textsUnder_fst] at htf
    exact (List.mem_filter.mp htf).1
  have htn : t ∈ allNodes container := mem_allNodes_of_mem_allDesc htd
  have hndT : ((textsUnder container).map Prod.fst).Nodup := nodup_texts_fst hwf
  -- generic facts about text-node entries
  have hTfst : ∀ q : Node × Node, q ∈ textsUnder container →
      q.1 ∈ allDesc container ∧ q.1.isText = true := by
    intro q hq
    have hq1 : q.1 ∈ (textsUnder container).map Prod.fst := List.mem_map.mpr ⟨q, hq, rfl⟩
    rw [textsUnder_fst] at hq1
    exact ⟨(List.mem_filter.mp hq1).1, (List.mem_filter.mp hq1).2⟩
  have hnode_of_nid : ∀ x : Node, x ∈ (textsUnder container).map Prod.fst →
      x.nid = t.nid → x = t := by
    intro x hx hnid
    rw [textsUnder_fst] at hx
    exact nid_inj hwf (mem_allNodes_of_mem_allDesc (List.mem_filter.mp hx).1) htn hnid
  have hclsdesc : ∀ pr : Node × Record, pr ∈ (firstPass uj base container).emitted →
      pr.1 ∈ allDesc container ∧ pr.1.isElem = true := by
    intro pr hpr
    have : pr.1 ∈ (firstPass uj base container).emitted.map Prod.fst :=
      List.mem_map.mpr ⟨pr, hpr, rfl⟩
    have hEF := hs2.subset this
    exact ⟨(mem_elements_found.mp hEF).1, (mem_elements_found.mp hEF).2.1⟩
  -- "t lies under a classified element" implies t consumed or parent consumed
  have hunder : ∀ pr : Node × Record, pr ∈ (firstPass uj base container).emitted →
      t.nid ∈ (textsUnder pr.1).map (fun q => q.1.nid) →
      t.nid ∈ (firstPass uj base container).processed_elements ∨
      (p.nid ∈ (firstPass uj base container).processed_elements ∧ p ∈ allDesc pr.1) := by
    intro pr hpr htin
    obtain ⟨hprdesc, hpre⟩ := hclsdesc pr hpr
    obtain ⟨p', hp'⟩ := textdesc_pair hwf hprdesc htn htin
    have hp'T : (t, p') ∈ textsUnder container := textsUnder_sub container pr.1 hprdesc _ hp'
    have hp'eq : p = p' := key_determines _ hndT hmem hp'T
    obtain ⟨_, hp'e, htch', hp'loc⟩ := textsUnder_parent pr.1 t p' hp'
    rcases hp'loc with rfl | hp'desc
    · exact Or.inl ((hs4 t.nid).mpr ⟨pr, hpr, closure_of_direct_text htch' htt⟩)
    · refine Or.inr ⟨(hs4 p.nid).mpr ⟨pr, hpr, ?_⟩, hp'eq ▸ hp'desc⟩
      rw [hp'eq]
      exact closure_of_desc_elem hp'desc hp'e
  -- decomposition of the text-node traversal at (t, p)
  obtain ⟨T1, T2, hT12⟩ := List.append_of_mem hmem
  have hfstT12 : (textsUnder container).map Prod.fst =
      T1.map Prod.fst ++ t :: T2.map Prod.fst := by
    rw [hT12]
    simp
  have hndmid := hndT
  rw [hfstT12] at hndmid
  have htn1 : t ∉ T1.map Prod.fst := by
    intro hx
    obtain ⟨hA, hR, hdisj⟩ := List.nodup_append.mp hndmid
    exact hdisj hx (List.mem_cons_self _ _)
  have htn2 : t ∉ T2.map Prod.fst := by
    obtain ⟨hA, hR, hdisj⟩ := List.nodup_append.mp hndmid
    exact (List.nodup_cons.mp hR).1
  have hmemT1 : ∀ q : Node × Node, q ∈ T1 → q ∈ textsUnder container := by
    intro q hq
    rw [hT12]
    exact List.mem_append_left _ hq
  have hmemT2 : ∀ q : Node × Node, q ∈ T2 → q ∈ textsUnder container := by
    intro q hq
    rw [hT12]
    exact List.mem_append_right _ (List.mem_cons_of_mem _ hq)
  have htnid1 : t.nid ∉ T1.map (fun q => q.1.nid) := by
    intro hx
    obtain ⟨⟨t', q⟩, hq, hnid⟩ := List.mem_map.mp hx
    have ht' : t' = t := hnode_of_nid t' (List.mem_map.mpr ⟨(t', q), hmemT1 _ hq, rfl⟩) hnid
    exact htn1 (List.mem_map.mpr ⟨(t', q), hq, ht'⟩)
  -- the classified component of the count
  by_cases hcls : ∃ pr ∈ (firstPass uj base container).emitted,
      t.nid ∈ (textsUnder pr.1).map (fun q => q.1.nid)
  · -- t lies under a (unique) classified element: exactly one classified
    -- record represents it and the recovery pass emits nothing for it
    have hclass1 : (((firstPass uj base container).emitted.filter
        (fun pr => decide (t.nid ∈ (textsUnder pr.1).map (fun q => q.1.nid)))).length) = 1 := by
      obtain ⟨pr0, hpr0, hpr0t⟩ := hcls
      have hndem : (firstPass uj base container).emitted.Nodup :=
        List.Nodup.of_map Prod.fst (List.Nodup.sublist hs2 (nodup_elements_found hwf))
      have hle : (((firstPass uj base container).emitted.filter
          (fun pr => decide (t.nid ∈ (textsUnder pr.1).map (fun q => q.1.nid)))).length) ≤ 1 := by
        apply filter_length_le_one _ _ hndem
        intro a ha b hb hqa hqb
        have hta := of_decide_eq_true hqa
        have htb := of_decide_eq_true hqb
        obtain ⟨hadesc, _⟩ := hclsdesc a ha
        obtain ⟨hbdesc, _⟩ := hclsdesc b hb
        obtain ⟨pa, hpa⟩ := textdesc_pair hwf hadesc htn hta
        obtain ⟨pb, hpb⟩ := textdesc_pair hwf hbdesc htn htb
        have htina : t ∈ allDesc a.1 := by
          have : t ∈ (textsUnder a.1).map Prod.fst := List.mem_map.mpr ⟨(t, pa), hpa, rfl⟩
          rw [textsUnder_fst] at this
          exact (List.mem_filter.mp this).1
        have htinb : t ∈ allDesc b.1 := by
          have : t ∈ (textsUnder b.1).map Prod.fst := List.mem_map.mpr ⟨(t, pb), hpb, rfl⟩
          rw [textsUnder_fst] at this
          exact (List.mem_filter.mp this).1
        have hfa : a.1 ∈ (firstPass uj base container).emitted.map Prod.fst :=
          List.mem_map.mpr ⟨a, ha, rfl⟩
        have hfb : b.1 ∈ (firstPass uj base container).emitted.map Prod.fst :=
          List.mem_map.mpr ⟨b, hb, rfl⟩
        have hcomp := comparable_node container hwf a.1 b.1 t hadesc hbdesc htina htinb
        have heq1 : a.1 = b.1 := by
          rcases hcomp with h | h | h
          · exact h
          · exact absurd h (fun hh => no_nested_classified uj base hwf hfb hfa hh)
          · exact absurd h (fun hh => no_nested_classified uj base hwf hfa hfb hh)
        have heq2 : a.2 = b.2 := by
          have h1 := hs3 a ha
          have h2 := hs3 b hb
          rw [heq1] at h1
          rw [h1] at h2
          exact Option.some.inj h2
        exact Prod.ext heq1 heq2
      have hge : 0 < (((firstPass uj base container).emitted.filter
          (fun pr => decide (t.nid ∈ (textsUnder pr.1).map (fun q => q.1.nid)))).length) := by
        rw [List.length_pos]
        intro hnil
        have : pr0 ∈ (firstPass uj base container).emitted.filter
            (fun pr => decide (t.nid ∈ (textsUnder pr.1).map (fun q => q.1.nid))) :=
          List.mem_filter.mpr ⟨hpr0, decide_eq_true hpr0t⟩
        rw [hnil] at this
        simp at this
      exact Nat.le_antisymm hle hge
    have hrec0 : (((scrape_dynamic_content uj base container).emitted.drop
        (firstPass uj base container).emitted.length).filter
        (fun pr => pr.1.nid == t.nid)).length = 0 := by
      obtain ⟨Δ, h1, h2, h3, h4, h5⟩ :=
        recovery_fold (textsUnder container) (firstPass uj base container)
      have hdrop : (scrape_dynamic_content uj base container).emitted.drop
          (firstPass uj base container).emitted.length = Δ := by
        show ((textsUnder container).foldl recoveryStep
          (firstPass uj base container)).emitted.drop _ = Δ
        rw [h1]
        exact List.drop_left _ _
      rw [hdrop, List.length_eq_zero, List.filter_eq_nil_iff]
      intro pr hpr hbeq
      have hnid : pr.1.nid = t.nid := by simpa using hbeq
      have hpr1 : pr.1 ∈ (textsUnder container).map Prod.fst := h3.subset
        (List.mem_map.mpr ⟨pr, hpr, rfl⟩)
      have hpre : pr.1 = t := hnode_of_nid pr.1 hpr1 hnid
      obtain ⟨par, hparT, hnid1, hnid2, _, _, _, _⟩ := h4 pr hpr
      rw [hpre] at hparT hnid1
      have hpareq : p = par := key_determines _ hndT hmem hparT
      obtain ⟨pr0, hpr0, hpr0t⟩ := hcls
      rcases hunder pr0 hpr0 hpr0t with hu | hu
      · exact hcons hu
      · exact hnid2 (hpareq ▸ hu.1)
    refine ⟨?_, fun _ => ?_⟩ <;>
      · rw [representedCount, hclass1, hrec0]
  · -- t lies under no classified element
    have hclass0 : (((firstPass uj base container).emitted.filter
        (fun pr => decide (t.nid ∈ (textsUnder pr.1).map (fun q => q.1.nid)))).length) = 0 := by
      rw [List.length_eq_zero, List.filter_eq_nil_iff]
      intro pr hpr hdq
      exact hcls ⟨pr, hpr, of_decide_eq_true hdq⟩
    by_cases hprim : p.name ∈ PRIMARY_TAGS
    · -- blocked by the primary-tag parent: nothing is emitted for t
      have hrec0 : (((scrape_dynamic_content uj base container).emitted.drop
          (firstPass uj base container).emitted.length).filter
          (fun pr => pr.1.nid == t.nid)).length = 0 := by
        obtain ⟨Δ, h1, h2, h3, h4, h5⟩ :=
          recovery_fold (textsUnder container) (firstPass uj base container)
        have hdrop : (scrape_dynamic_content uj base container).emitted.drop
            (firstPass uj base container).emitted.length = Δ := by
          show ((textsUnder container).foldl recoveryStep
            (firstPass uj base container)).emitted.drop _ = Δ
          rw [h1]
          exact List.drop_left _ _
        rw [hdrop, List.length_eq_zero, List.filter_eq_nil_iff]
        intro pr hpr hbeq
        have hnid : pr.1.nid = t.nid := by simpa using hbeq
        have hpr1 : pr.1 ∈ (textsUnder container).map Prod.fst := h3.subset
          (List.mem_map.mpr ⟨pr, hpr, rfl⟩)
        have hpre : pr.1 = t := hnode_of_nid pr.1 hpr1 hnid
        obtain ⟨par, hparT, _, _, _, hparprim, _, _⟩ := h4 pr hpr
        rw [hpre] at hparT
        exact hparprim (key_determines _ hndT hmem hparT ▸ hprim)
      refine ⟨?_, fun hnp => absurd hprim hnp⟩
      rw [representedCount, hclass0, hrec0]
      decide
    · -- the recovery pass emits exactly one text_chunk for t
      obtain ⟨ΔM, hM1, hM2, hM3, hM4, hM5⟩ := recovery_fold T1 (firstPass uj base container)
      have htm : t.nid ∉ (T1.foldl recoveryStep (firstPass uj base container)).processed_elements := by
        rw [hM5]
        rintro (hx | hx)
        · exact hcons hx
        · exact htnid1 hx
      have hpm : p.nid ∉ (T1.foldl recoveryStep (firstPass uj base container)).processed_elements := by
        rw [hM5]
        rintro (hx | hx)
        · obtain ⟨prE, hprE, hclos⟩ := (hs4 p.nid).mp hx
          obtain ⟨hEdesc, hEe⟩ := hclsdesc prE hprE
          rcases elem_mem_closure hwf hEdesc hploc hpe hclos with heq | hpd
          · refine hcls ⟨prE, hprE, List.mem_map.mpr ⟨(t, prE.1), ?_, rfl⟩⟩
            have h0 := textsUnder_child hpe htt htch
            rw [heq] at h0
            exact h0
          · exact hcls ⟨prE, hprE, List.mem_map.mpr
              ⟨(t, p), textsUnder_sub prE.1 p hpd _ (textsUnder_child hpe htt htch), rfl⟩⟩
        · obtain ⟨⟨t', q⟩, hq, hnid⟩ := List.mem_map.mp hx
          have hq1 := hTfst (t', q) (hmemT1 _ hq)
          have ht'p : t' = p :=
            nid_inj hwf (mem_allNodes_of_mem_allDesc hq1.1) (mem_allNodes_cases hploc) hnid
          exact not_text_of_elem hpe (ht'p ▸ hq1.2)
      have hstep := recoveryStep_emit htm hpar hne hpm hprim
      obtain ⟨ΔR, hR1, hR2, hR3, hR4, hR5⟩ := recovery_fold T2
        (recoveryStep (T1.foldl recoveryStep (firstPass uj base container)) (t, p))
      have hscr : (scrape_dynamic_content uj base container).emitted =
          (firstPass uj base container).emitted ++
            (ΔM ++ (t, text_chunk_record (clean_text t.strVal)) :: ΔR) := by
        show ((textsUnder container).foldl recoveryStep
          (firstPass uj base container)).emitted = _
        rw [hT12, List.foldl_append, List.foldl_cons, hR1, hstep]
        simp only [hM1]
        simp
      have hdrop : (scrape_dynamic_content uj base container).emitted.drop
          (firstPass uj base container).emitted.length =
          ΔM ++ (t, text_chunk_record (clean_text t.strVal)) :: ΔR := by
        rw [hscr]
        exact List.drop_left _ _
      have hMnil : (ΔM.filter (fun pr => pr.1.nid == t.nid)) = [] := by
        rw [List.filter_eq_nil_iff]
        intro pr hpr hbeq
        have hnid : pr.1.nid = t.nid := by simpa using hbeq
        have hpr1 : pr.1 ∈ T1.map Prod.fst := hM3.subset (List.mem_map.mpr ⟨pr, hpr, rfl⟩)
        obtain ⟨q, hq, hfst⟩ := List.mem_map.mp hpr1
        have := hnode_of_nid pr.1 (List.mem_map.mpr ⟨q, hmemT1 _ hq, hfst⟩) hnid
        exact htn1 (this ▸ hpr1)
      have hRnil : (ΔR.filter (fun pr => pr.1.nid == t.nid)) = [] := by
        rw [List.filter_eq_nil_iff]
        intro pr hpr hbeq
        have hnid : pr.1.nid = t.nid := by simpa using hbeq
        obtain ⟨par, hparT, hnidproc, _, _, _, _, _⟩ := hR4 pr hpr
        apply hnidproc
        rw [hstep]
        simp only [hnid]
        exact List.mem_insert_self _ _
      have hrec1 : (((scrape_dynamic_content uj base container).emitted.drop
          (firstPass uj base container).emitted.length).filter
          (fun pr => pr.1.nid == t.nid)).length = 1 := by
        rw [hdrop, List.filter_append, List.filter_cons]
        simp only [hMnil, hRnil]
        simp
      refine ⟨?_, fun _ => ?_⟩ <;>
        · rw [representedCount, hclass0, hrec1]

def treeC1w : Node := Node.elem 0 "body" [] [Node.elem 1 "div" [] [Node.text 2 "hi"]]

/-- C1 witness: in `<body><div>hi</div></body>` the orphan text node is
represented in exactly one output record. -/
theorem c1_witness :
    WF treeC1w ∧ representedCount ujW "http://b/" treeC1w 2 = 1 :=
  ⟨by decide,
   (@c1_completeness_amended ujW "http://b/" treeC1w (Node.text 2 "hi")
      (Node.elem 1 "div" [] [Node.text 2 "hi"]) (by decide) (by decide) (by decide)
      (by decide) (by decide)).2 (by decide)⟩
